import Mathlib

/-!
Shallow embedding of the `cnt` configuration library
(`src/minecraft/lib/config.hpp`): the `ConfigObject` tagged value tree,
its typed getters and mutating subscripts, the recursive-descent parser
(`parse_value` / `parse_content`), the serializer (`write_value`) and the
`Config` document operations (`open`, `get`, `set`, `add_impl`,
`operator[]`).

Strings are modelled as `List Char` (byte strings), machine `long long`
as `Int` with explicit range checks where the source library checks them
(`std::stoll` throws `out_of_range`), and IEEE doubles as exact rationals
together with an explicit round-to-nearest model of the
`long long → double` conversion.  Object payloads
(`std::map<std::string, ConfigObject>`) and array payloads
(`std::vector<ConfigObject>`) are the mutually inductive types `Cmap`
(a key-sorted association sequence) and `Carr`.

The parser's loops can fail to make progress (and then never terminate in
the source), so every looping function takes an explicit fuel argument,
decremented once per loop iteration and per recursive call; `.timeout`
reports exhausted fuel, i.e. an execution of the source that is still
running after that many steps.
-/

namespace CntConfig

/-- `std::isspace` in the C locale, on the ASCII whitespace characters. -/
def isspaceB (c : Char) : Bool :=
  c = ' ' || c = '\t' || c = '\n' || c = '\x0b' || c = '\x0c' || c = '\r'

/-- `std::isdigit` in the C locale. -/
def isdigitB (c : Char) : Bool :=
  '0' ≤ c && c ≤ '9'

/-- `std::isalnum` in the C locale (ASCII letters and digits). -/
def isalnumB (c : Char) : Bool :=
  isdigitB c || ('a' ≤ c && c ≤ 'z') || ('A' ≤ c && c ≤ 'Z')

/-- Characters allowed in an unquoted key in `Config::parse_key`. -/
def isKeyChar (c : Char) : Bool :=
  isalnumB c || c = '_' || c = '-'

/-- Keys are byte strings (`std::string`). -/
abbrev Key := List Char

mutual

/-- The tagged value type `cnt::ConfigObject` (`ConfigType` tag plus the
matching `ConfigValue` payload; the class invariant keeps them in sync, so
one constructor per tag is the faithful model). -/
inductive ConfigObject where
  | cnone : ConfigObject
  | number (n : Int) : ConfigObject
  | float (q : ℚ) : ConfigObject
  | boolean (b : Bool) : ConfigObject
  | str (s : List Char) : ConfigObject
  | character (c : Char) : ConfigObject
  | object (m : Cmap) : ConfigObject
  | array (a : Carr) : ConfigObject

/-- An Object payload: `std::map<std::string, ConfigObject>` as a
key-sorted association sequence. -/
inductive Cmap where
  | nil : Cmap
  | cons (k : Key) (v : ConfigObject) (rest : Cmap) : Cmap

/-- An Array payload: `std::vector<ConfigObject>`. -/
inductive Carr where
  | nil : Carr
  | cons (v : ConfigObject) (rest : Carr) : Carr

end

mutual

/-- Structural equality of values. -/
def ConfigObject.beq : ConfigObject → ConfigObject → Bool
  | .cnone, .cnone => true
  | .number n, .number n' => n == n'
  | .float q, .float q' => q == q'
  | .boolean b, .boolean b' => b == b'
  | .str s, .str s' => s == s'
  | .character c, .character c' => c == c'
  | .object m, .object m' => Cmap.beq m m'
  | .array a, .array a' => Carr.beq a a'
  | _, _ => false

/-- Structural equality of object payloads. -/
def Cmap.beq : Cmap → Cmap → Bool
  | .nil, .nil => true
  | .cons k v r, .cons k' v' r' => k == k' && ConfigObject.beq v v' && Cmap.beq r r'
  | _, _ => false

/-- Structural equality of array payloads. -/
def Carr.beq : Carr → Carr → Bool
  | .nil, .nil => true
  | .cons v r, .cons v' r' => ConfigObject.beq v v' && Carr.beq r r'
  | _, _ => false

end

mutual

theorem ConfigObject.beq_iff_obj :
    ∀ t u : ConfigObject, ConfigObject.beq t u = true ↔ t = u
  | .cnone, u => by cases u <;> simp [ConfigObject.beq]
  | .number n, u => by cases u <;> simp [ConfigObject.beq]
  | .float q, u => by cases u <;> simp [ConfigObject.beq]
  | .boolean b, u => by cases u <;> simp [ConfigObject.beq]
  | .str s, u => by cases u <;> simp [ConfigObject.beq]
  | .character c, u => by cases u <;> simp [ConfigObject.beq]
  | .object m, u => by
    cases u <;> simp only [ConfigObject.beq] <;> try simp
    rename_i m'
    rw [Cmap.beq_iff_map m m']
  | .array a, u => by
    cases u <;> simp only [ConfigObject.beq] <;> try simp
    rename_i a'
    rw [Carr.beq_iff_arr a a']

theorem Cmap.beq_iff_map : ∀ m m' : Cmap, Cmap.beq m m' = true ↔ m = m'
  | .nil, m' => by cases m' <;> simp [Cmap.beq]
  | .cons k v r, m' => by
    cases m' with
    | nil => simp [Cmap.beq]
    | cons k' v' r' =>
      simp only [Cmap.beq, Bool.and_eq_true, beq_iff_eq, Cmap.cons.injEq]
      rw [ConfigObject.beq_iff_obj v v', Cmap.beq_iff_map r r']
      tauto

theorem Carr.beq_iff_arr : ∀ a a' : Carr, Carr.beq a a' = true ↔ a = a'
  | .nil, a' => by cases a' <;> simp [Carr.beq]
  | .cons v r, a' => by
    cases a' with
    | nil => simp [Carr.beq]
    | cons v' r' =>
      simp only [Carr.beq, Bool.and_eq_true, Carr.cons.injEq]
      rw [ConfigObject.beq_iff_obj v v', Carr.beq_iff_arr r r']

end

instance : DecidableEq ConfigObject := fun a b =>
  decidable_of_iff _ (ConfigObject.beq_iff_obj a b)

instance : DecidableEq Cmap := fun a b =>
  decidable_of_iff _ (Cmap.beq_iff_map a b)

instance : DecidableEq Carr := fun a b =>
  decidable_of_iff _ (Carr.beq_iff_arr a b)

/-- Build an object payload from a list of key/value pairs (left to
right, later entries later in the sequence). -/
def Cmap.ofList : List (Key × ConfigObject) → Cmap
  | [] => .nil
  | (k, v) :: rest => .cons k v (Cmap.ofList rest)

/-- Build an array payload from a list of values. -/
def Carr.ofList : List ConfigObject → Carr
  | [] => .nil
  | v :: rest => .cons v (Carr.ofList rest)

/-- `std::vector::size`. -/
def Carr.length : Carr → Nat
  | .nil => 0
  | .cons _ rest => 1 + Carr.length rest

/-- Concatenation of array payloads. -/
def Carr.append : Carr → Carr → Carr
  | .nil, b => b
  | .cons v r, b => .cons v (Carr.append r b)

/-- `push_back`: append one element at the end. -/
def Carr.snoc (a : Carr) (v : ConfigObject) : Carr :=
  Carr.append a (.cons v .nil)

/-- `n` copies of a value (the `resize` padding). -/
def Carr.replicate : Nat → ConfigObject → Carr
  | 0, _ => .nil
  | n + 1, v => .cons v (Carr.replicate n v)

/-- `std::string` ordering (`std::less<std::string>`): lexicographic
comparison of the byte sequences. -/
def keyLt : Key → Key → Bool
  | [], [] => false
  | [], _ :: _ => true
  | _ :: _, [] => false
  | a :: as, b :: bs =>
    if a.toNat < b.toNat then true
    else if b.toNat < a.toNat then false
    else keyLt as bs

/-- `std::map::operator[] = v`: insertion into the sorted association
sequence, overwriting an existing binding. -/
def insertC (k : Key) (v : ConfigObject) : Cmap → Cmap
  | .nil => .cons k v .nil
  | .cons k' v' rest =>
    if keyLt k k' then .cons k v (.cons k' v' rest)
    else if k = k' then .cons k v rest
    else .cons k' v' (insertC k v rest)

/-- `std::map::find`: lookup in the association sequence. -/
def lookupC (k : Key) : Cmap → Option ConfigObject
  | .nil => Option.none
  | .cons k' v' rest => if k = k' then some v' else lookupC k rest

/-- `std::map::erase(name)` (as used by `Config::remove`). -/
def Cmap.eraseKey (name : Key) : Cmap → Cmap
  | .nil => .nil
  | .cons k v rest =>
    if k = name then Cmap.eraseKey name rest
    else .cons k v (Cmap.eraseKey name rest)

/-! ## Typed getters (`ConfigObject::get_as`) -/

/-- Floor of the base-2 logarithm, by fueled halving (`f` at least the bit
length of `n`). -/
def log2Aux : Nat → Nat → Nat
  | 0, _ => 0
  | f + 1, n => if n < 2 then 0 else log2Aux f (n / 2) + 1

/-- Floor of the base-2 logarithm of a positive natural number. -/
def natLog2 (n : Nat) : Nat := log2Aux n n

/-- Round a natural number to the nearest multiple of `2 ^ s`, ties to the
even multiple: the rounding step of an IEEE conversion. -/
def roundScale (m : Nat) (s : Nat) : Nat :=
  let p := 2 ^ s
  let q := m / p
  let r := m % p
  if 2 * r < p then q * p
  else if p < 2 * r then (q + 1) * p
  else (if q % 2 = 0 then q else q + 1) * p

/-- `static_cast<double>(long long)`: conversion of a 64-bit integer to an
IEEE binary64 value (round to nearest, ties to even; exact below `2 ^ 53`,
and never out of the finite double range for 64-bit inputs), with the
resulting double value represented exactly as a rational. -/
def int64ToDouble (n : Int) : ℚ :=
  let m := n.natAbs
  if m ≤ 2 ^ 53 then (n : ℚ)
  else
    let r := roundScale m (natLog2 m - 52)
    if n < 0 then -(r : ℚ) else (r : ℚ)

/-- `static_cast<long long>(double)`: truncation toward zero — but only
when the truncated value is representable in `long long`.  Outside
`[-2^63, 2^63 - 1]` the conversion is undefined behavior in C++ (the
source has no defined result), so the model assigns no value there. -/
def truncDouble (q : ℚ) : Option Int :=
  let t : Int := if q < 0 then -((-q).floor) else q.floor
  if -(2 ^ 63) ≤ t ∧ t ≤ 2 ^ 63 - 1 then some t else Option.none

/-- `get_as<long long>` (and `as_number`): Integer payload, or a
Float payload truncated toward zero (undefined — hence no modeled
result — when the truncation falls outside the `long long` range);
every other tag yields no value. -/
def ConfigObject.get_as_number : ConfigObject → Option Int
  | .number n => some n
  | .float q => truncDouble q
  | _ => Option.none

/-- `get_as<double>` (and `as_float`): Float payload, or an Integer payload
converted to double; every other tag yields no value. -/
def ConfigObject.get_as_float : ConfigObject → Option ℚ
  | .float q => some q
  | .number n => some (int64ToDouble n)
  | _ => Option.none

/-- `get_as<bool>` (and `as_boolean`). -/
def ConfigObject.get_as_boolean : ConfigObject → Option Bool
  | .boolean b => some b
  | _ => Option.none

/-- `get_as<std::string>` (and `as_string`): String payload, or a Character
payload wrapped in a length-1 string. -/
def ConfigObject.get_as_string : ConfigObject → Option (List Char)
  | .str s => some s
  | .character c => some [c]
  | _ => Option.none

/-- `get_as<char>` (and `as_character`): Character payload, or the single
character of a length-1 String payload. -/
def ConfigObject.get_as_character : ConfigObject → Option Char
  | .character c => some c
  | .str s => (match s with | [c] => some c | _ => Option.none)
  | _ => Option.none

/-! ## Mutating subscripts (`ConfigObject::operator[]`) -/

/-- `ConfigObject::operator[](const std::string&)`, as a transformer on the
value's state: a non-Object value is reinitialized as an empty Object, then
`std::map::operator[]` inserts a default (`None`) entry when the key is
absent.  The result is the state of the value after the access. -/
def ConfigObject.subscriptKey (v : ConfigObject) (k : Key) : ConfigObject :=
  let m : Cmap := match v with | .object m => m | _ => .nil
  match lookupC k m with
  | some _ => .object m
  | Option.none => .object (insertC k .cnone m)

/-- `ConfigObject::operator[](size_t)`, as a transformer on the value's
state: a non-Array value is reinitialized as an empty Array, then
`resize(index + 1)` pads with default (`None`) elements when the index is
beyond the current length. -/
def ConfigObject.subscriptIndex (v : ConfigObject) (i : Nat) : ConfigObject :=
  let a : Carr := match v with | .array a => a | _ => .nil
  if a.length ≤ i then .array (Carr.append a (Carr.replicate (i + 1 - a.length) .cnone))
  else .array a

/-! ## The serializer (`Config::write_value`) -/

/-- Decimal digits of `n`, most significant first; the fuel `f` bounds the
recursion depth and is adequate whenever `f` exceeds the number of digits
(the wrapper `natChars` passes `n + 1`). -/
def natCharsF : Nat → Nat → List Char
  | 0, _ => []
  | f + 1, n =>
    if n < 10 then [Char.ofNat (48 + n)]
    else natCharsF f (n / 10) ++ [Char.ofNat (48 + n % 10)]

/-- Decimal digits of a natural number, most significant first. -/
def natChars (n : Nat) : List Char := natCharsF (n + 1) n

/-- `operator<<(std::ostream, long long)`: decimal rendering. -/
def intToChars (n : Int) : List Char :=
  if n < 0 then '-' :: natChars (-n).toNat else natChars n.toNat

/-- `10 ^ e` as a rational, for an integer exponent. -/
def pow10 (e : Int) : ℚ :=
  if 0 ≤ e then ((10 : ℚ) ^ e.toNat) else 1 / ((10 : ℚ) ^ (-e).toNat)

/-- Floor of the base-10 logarithm of a positive rational: the decimal
exponent used by the float formatter. -/
def decExp (a : ℚ) : Int :=
  let e0 : Int := (natChars a.num.natAbs).length - (natChars a.den).length
  if a < pow10 e0 then e0 - 1
  else if a < pow10 (e0 + 1) then e0
  else e0 + 1

/-- Drop trailing `'0'` characters. -/
def stripZeros (l : List Char) : List Char :=
  (l.reverse.dropWhile (fun c => c = '0')).reverse

/-- `operator<<(std::ostream, double)` with the default stream state:
`%g`-style formatting with 6 significant digits — fixed notation for
decimal exponents in `[-4, 5]`, scientific (`d.ddddde±xx`) otherwise, with
trailing zeros (and a bare decimal point) removed.  The double payload is
modelled as a rational, so this renders its exact value to 6 significant
digits. -/
def floatToChars (q : ℚ) : List Char :=
  if q = 0 then ['0']
  else
    let sgn : List Char := if q < 0 then ['-'] else []
    let a := |q|
    let e0 := decExp a
    let m0 := round (a / pow10 (e0 - 5))
    let me : Nat × Int := if m0 = 10 ^ 6 then (10 ^ 5, e0 + 1) else (m0.toNat, e0)
    let ds := natChars me.1
    let e := me.2
    if e < -4 ∨ 6 ≤ e then
      let mant : List Char :=
        match ds with
        | c :: rest =>
          (let frac := stripZeros rest
           if frac = [] then [c] else c :: '.' :: frac)
        | [] => ['0']
      let esign : List Char := if e < 0 then ['-'] else ['+']
      let eabs := e.natAbs
      let echars := if eabs < 10 then '0' :: natChars eabs else natChars eabs
      sgn ++ mant ++ 'e' :: (esign ++ echars)
    else if 0 ≤ e then
      let ip := ds.take (e.toNat + 1)
      let fp := stripZeros (ds.drop (e.toNat + 1))
      sgn ++ ip ++ (if fp = [] then [] else '.' :: fp)
    else
      let zeros := List.replicate (-(e + 1)).toNat '0'
      let fp := stripZeros (zeros ++ ds)
      sgn ++ '0' :: '.' :: fp

/-- String-payload escaping in `write_value`'s `STRING` case:
`\n \t \r \\ \"` are escaped, every other byte passes through verbatim. -/
def escString : List Char → List Char
  | [] => []
  | c :: r =>
    (if c = '\n' then ['\\', 'n']
     else if c = '\t' then ['\\', 't']
     else if c = '\r' then ['\\', 'r']
     else if c = '\\' then ['\\', '\\']
     else if c = '"' then ['\\', '"']
     else [c]) ++ escString r

/-- The full single-quoted token written by `write_value`'s `CHARACTER`
case. -/
def escCharTok (c : Char) : List Char :=
  if c = '\n' then ['\'', '\\', 'n', '\'']
  else if c = '\t' then ['\'', '\\', 't', '\'']
  else if c = '\r' then ['\'', '\\', 'r', '\'']
  else if c = '\\' then ['\'', '\\', '\\', '\'']
  else if c = '\'' then ['\'', '\\', '\'', '\'']
  else ['\'', c, '\'']

/-- `indent * 4` spaces (`indent_str` in `write_value`). -/
def indentStr (indent : Nat) : List Char :=
  List.replicate (indent * 4) ' '

/-- `Config::write_value(os, obj, indent, is_inline)`: the text written to
the stream.  In the OBJECT and ARRAY cases the source first calls
`obj.get_as<std::shared_ptr<std::map<...>>>()` (resp. `std::vector`);
those instantiations match none of the `if constexpr` branches of
`get_as`, so the call always returns `nullopt` and the guard
`if (!obj_ptr) break;` (resp. `if (!arr_ptr) break;`) is always taken
before anything is printed: an object or array node writes nothing at
all, and the rendering code below those guards (including the empty
`\x7b\x7d` / `[]` forms) is unreachable. -/
def write_value : ConfigObject → Nat → Bool → List Char
  | .cnone, _, _ => ['N', 'o', 'n', 'e']
  | .number n, _, _ => intToChars n
  | .float q, _, _ => floatToChars q
  | .boolean b, _, _ =>
    if b then ['t', 'r', 'u', 'e'] else ['f', 'a', 'l', 's', 'e']
  | .str s, _, _ => '"' :: (escString s ++ ['"'])
  | .character c, _, _ => escCharTok c
  | .object _, _, _ => []
  | .array _, _, _ => []

/-! ## The parser (`Config::parse_value` / `Config::parse_content`)

The source parser walks a `std::string` with a cursor; the model consumes
a `List Char` from the front and returns the unconsumed remainder. -/

/-- `Config::skip_whitespace`. -/
def skipWs (s : List Char) : List Char := s.dropWhile isspaceB

/-- The single-line-comment loop of `Config::skip_comment`. -/
def skipLineComment (s : List Char) : List Char :=
  s.dropWhile (fun c => c ≠ '\n')

/-- The multi-line-comment loop of `Config::skip_comment`, entered after
the opening `/*`: advance one character at a time until the cursor sits
on `*/` (then consume both) or until fewer than two characters remain. -/
def skipBlockAux : List Char → List Char
  | [] => []
  | [c] => [c]
  | c1 :: c2 :: r => if c1 = '*' ∧ c2 = '/' then r else skipBlockAux (c2 :: r)

/-- `Config::skip_comment`: a no-op unless the cursor sits on `//` or
`/*`. -/
def skipComment : List Char → List Char
  | '/' :: '/' :: r => skipLineComment ('/' :: '/' :: r)
  | '/' :: '*' :: r => skipBlockAux r
  | s => s


/-- The comment-skipping loop at the top of `Config::parse_content`:
`while (content[pos] == '/') { skip_comment; if no progress break;
skip_whitespace; }`.  Each iteration either breaks or strictly shortens
the input, so fuel `s.length + 1` (used by the wrapper `skipComments`) is
always adequate. -/
def skipCommentsF : Nat → List Char → List Char
  | 0, s => s
  | f + 1, s =>
    match s with
    | '/' :: r =>
      let t := skipComment ('/' :: r)
      if t.length < ('/' :: r).length then skipCommentsF f (skipWs t)
      else '/' :: r
    | s => s

/-- The comment-skipping loop with its always-adequate fuel. -/
def skipComments (s : List Char) : List Char := skipCommentsF (s.length + 1) s

/-- `Config::parse_key`: a quoted key (no escape handling, consumes to the
closing quote) or a bare `[A-Za-z0-9_-]*` identifier. -/
def parseKey (input : List Char) : Key × List Char :=
  match skipWs input with
  | '"' :: r =>
    let k := r.takeWhile (fun c => c ≠ '"')
    let rest := r.dropWhile (fun c => c ≠ '"')
    (k, match rest with | '"' :: r' => r' | other => other)
  | s => (s.takeWhile isKeyChar, s.dropWhile isKeyChar)

/-- The escape map shared by `parse_value`'s string and character cases;
any other escaped character passes through literally (including `"` and
`'`, which map to themselves). -/
def escMapStr (c : Char) : Char :=
  if c = 'n' then '\n'
  else if c = 't' then '\t'
  else if c = 'r' then '\r'
  else c

/-- The body of `parse_value`'s string case, entered after the opening
quote: accumulate (unescaping) until a closing quote (consumed) or end of
input; a lone trailing backslash is kept literally. -/
def parseStringBody : List Char → List Char × List Char
  | [] => ([], [])
  | '"' :: r => ([], r)
  | '\\' :: c :: r =>
    let p := parseStringBody r
    (escMapStr c :: p.1, p.2)
  | c :: r =>
    let p := parseStringBody r
    (c :: p.1, p.2)

/-- The body of `parse_value`'s character case, entered after the opening
quote: one (possibly escaped) character — `'\0'` at end of input — then an
optional closing quote. -/
def parseCharBody : List Char → Char × List Char
  | [] => ('\x00', [])
  | '\\' :: c :: r =>
    (escMapStr c, match r with | '\'' :: r' => r' | other => other)
  | c :: r =>
    (c, match r with | '\'' :: r' => r' | other => other)

/-- The character set of the numeric-token scan loop in `parse_value`. -/
def numChar (c : Char) : Bool :=
  isdigitB c || c = '.' || c = 'e' || c = 'E' || c = '+' || c = '-'

/-- The value of a digit string, most significant first. -/
def digitsVal (l : List Char) : Nat :=
  l.foldl (fun a c => 10 * a + (c.toNat - 48)) 0

/-- The optional-sign scan shared by the `strtoll`/`strtod` models: the
sign factor and the remaining characters. -/
def signSplit (t : List Char) : Int × List Char :=
  match t with
  | '-' :: r => (-1, r)
  | '+' :: r => (1, r)
  | r => (1, r)

/-- `std::stoll`: optional leading whitespace and sign, then at least one
digit (else `invalid_argument`, modelled as `Option.none`); trailing
characters are ignored; a value outside the `long long` range throws
`out_of_range` (also `Option.none`). -/
def stollM (tok : List Char) : Option Int :=
  let t := tok.dropWhile isspaceB
  let st : Int × List Char := signSplit t
  let ds := st.2.takeWhile isdigitB
  if ds = [] then Option.none
  else
    let v : Int := st.1 * (digitsVal ds : Int)
    if v < -(2 ^ 63) ∨ 2 ^ 63 - 1 < v then Option.none else some v

/-- The exponent part accepted by `strtod`: `e`/`E`, an optional sign and
at least one digit — applied only when the digits are present. -/
def stodExp : List Char → Int
  | 'e' :: '-' :: r =>
    (if r.takeWhile isdigitB = [] then 0
     else -(digitsVal (r.takeWhile isdigitB) : Int))
  | 'e' :: '+' :: r =>
    (if r.takeWhile isdigitB = [] then 0
     else (digitsVal (r.takeWhile isdigitB) : Int))
  | 'e' :: r =>
    (if r.takeWhile isdigitB = [] then 0
     else (digitsVal (r.takeWhile isdigitB) : Int))
  | 'E' :: '-' :: r =>
    (if r.takeWhile isdigitB = [] then 0
     else -(digitsVal (r.takeWhile isdigitB) : Int))
  | 'E' :: '+' :: r =>
    (if r.takeWhile isdigitB = [] then 0
     else (digitsVal (r.takeWhile isdigitB) : Int))
  | 'E' :: r =>
    (if r.takeWhile isdigitB = [] then 0
     else (digitsVal (r.takeWhile isdigitB) : Int))
  | _ => 0

/-- `std::stod`: optional leading whitespace and sign, integer digits, an
optional fraction and an optional exponent; at least one mantissa digit is
required (else `invalid_argument`); trailing characters are ignored; a
value beyond the finite double range throws `out_of_range`.  The parsed
value is modelled as the exact decimal rational. -/
def stodM (tok : List Char) : Option ℚ :=
  let st0 := signSplit (tok.dropWhile isspaceB)
  let st : ℚ × List Char := ((st0.1 : ℚ), st0.2)
  let ip := st.2.takeWhile isdigitB
  let t2 := st.2.dropWhile isdigitB
  let fpt : List Char × List Char :=
    match t2 with
    | '.' :: r => (r.takeWhile isdigitB, r.dropWhile isdigitB)
    | r => ([], r)
  if ip = [] ∧ fpt.1 = [] then Option.none
  else
    let mant : ℚ :=
      (digitsVal ip : ℚ) + (digitsVal fpt.1 : ℚ) / ((10 : ℚ) ^ fpt.1.length)
    let v := st.1 * mant * pow10 (stodExp fpt.2)
    if (2 : ℚ) ^ 1024 ≤ |v| then Option.none else some v

/-- The result of a parsing function: a value plus the unconsumed
remainder, a thrown `Invalid number` error carrying the offending token,
or exhausted fuel (the source loops). -/
inductive PRes (α : Type) where
  | ok (a : α) (rest : List Char)
  | err (tok : List Char)
  | timeout
  deriving DecidableEq

/-- The sign handling at the top of `parse_value`'s numeric branch: the
consumed sign characters and the rest. -/
def signChars (s : List Char) : List Char × List Char :=
  match s with
  | '-' :: r => (['-'], r)
  | '+' :: r => (['+'], r)
  | r => ([], r)

/-- The numeric branch of `parse_value`: scan an optional sign then the
`[0-9.eE+-]*` token; `.` anywhere in the token selects the float path. -/
def parseNumber (s : List Char) : PRes ConfigObject :=
  let sp : List Char × List Char := signChars s
  let numStr := sp.1 ++ sp.2.takeWhile numChar
  let rest := sp.2.dropWhile numChar
  if '.' ∈ numStr then
    match stodM numStr with
    | some q => .ok (.float q) rest
    | Option.none => .err numStr
  else
    match stollM numStr with
    | some n => .ok (.number n) rest
    | Option.none => .err numStr

mutual

/-- `Config::parse_value`. -/
def parse_value : Nat → List Char → PRes ConfigObject
  | 0, _ => .timeout
  | fuel + 1, input =>
    match skipWs input with
    | [] => .ok .cnone []
    | 'N' :: 'o' :: 'n' :: 'e' :: r => .ok .cnone r
    | 't' :: 'r' :: 'u' :: 'e' :: r => .ok (.boolean true) r
    | 'f' :: 'a' :: 'l' :: 's' :: 'e' :: r => .ok (.boolean false) r
    | '"' :: r =>
      let p := parseStringBody r
      .ok (.str p.1) p.2
    | '\'' :: r =>
      let p := parseCharBody r
      .ok (.character p.1) p.2
    | '[' :: r =>
      (match parseArrayLoop fuel (skipWs r) .nil with
       | .ok a rest => .ok (.array a) rest
       | .err t => .err t
       | .timeout => .timeout)
    | '\x7b' :: r =>
      (match parseObjectLoop fuel (skipWs r) .nil with
       | .ok m rest => .ok (.object m) rest
       | .err t => .err t
       | .timeout => .timeout)
    | c :: r =>
      if isdigitB c || c = '-' || c = '+' then parseNumber (c :: r)
      else .ok .cnone (c :: r)

/-- The element loop of `parse_value`'s array case (after `[` and
whitespace): stop at `]` (consumed) or end of input; otherwise parse an
element, skip whitespace and an optional comma, repeat. -/
def parseArrayLoop : Nat → List Char → Carr → PRes Carr
  | 0, _, _ => .timeout
  | fuel + 1, s, acc =>
    match s with
    | [] => .ok acc []
    | ']' :: r => .ok acc r
    | _ =>
      match parse_value fuel s with
      | .err t => .err t
      | .timeout => .timeout
      | .ok v rest =>
        let s1 := skipWs rest
        let s2 := match s1 with | ',' :: r => skipWs r | t => t
        parseArrayLoop fuel s2 (acc.snoc v)

/-- The pair loop of `parse_value`'s object case (after the opening brace
and whitespace): stop at the closing brace (consumed) or end of input;
otherwise parse a key, an optional `:`, a value, then skip whitespace and
an optional comma, repeat. -/
def parseObjectLoop : Nat → List Char → Cmap → PRes Cmap
  | 0, _, _ => .timeout
  | fuel + 1, s, acc =>
    match s with
    | [] => .ok acc []
    | '\x7d' :: r => .ok acc r
    | _ =>
      let kp := parseKey s
      let r2 := skipWs kp.2
      let r3 := match r2 with | ':' :: r => r | t => t
      match parse_value fuel r3 with
      | .err t => .err t
      | .timeout => .timeout
      | .ok v rest =>
        let s1 := skipWs rest
        let s2 := match s1 with | ',' :: r => skipWs r | t => t
        parseObjectLoop fuel s2 (insertC kp.1 v acc)

end

/-- The result of `Config::parse_content`: the final mapping, or a thrown
`Invalid number` error together with the pairs already stored in the
freshly reset `data` map when the exception escaped, or exhausted fuel. -/
inductive PCRes where
  | ok (m : Cmap)
  | err (tok : List Char) (sofar : Cmap)
  | timeout
  deriving DecidableEq

/-- The top-level pair loop of `Config::parse_content` (the map has
already been reset to empty): skip whitespace and comments, parse
`key : value`, store it when the key is nonempty, skip an optional comma,
repeat until end of input. -/
def parseContentLoop : Nat → List Char → Cmap → PCRes
  | 0, _, _ => .timeout
  | fuel + 1, s, acc =>
    if s = [] then .ok acc
    else
      let s1 := skipComments (skipWs s)
      if s1 = [] then .ok acc
      else
        let kp := parseKey s1
        let r2 := skipWs kp.2
        let r3 := match r2 with | ':' :: r => r | t => t
        match parse_value fuel r3 with
        | .err t => .err t acc
        | .timeout => .timeout
        | .ok v rest =>
          let acc' := if kp.1 = [] then acc else insertC kp.1 v acc
          let s2 := skipWs rest
          let s3 := match s2 with | ',' :: r => r | t => t
          parseContentLoop fuel s3 acc'

/-- `Config::parse_content`: reset `data` to an empty map, then run the
top-level pair loop. -/
def parse_content (fuel : Nat) (s : List Char) : PCRes :=
  parseContentLoop fuel s .nil

/-! ## The document (`cnt::Config`) -/

/-- The `Config` document: the owned top-level map (`data` is a
`unique_ptr`, null only for a moved-from object, hence the `Option`), the
optional bound path and the `opened` flag. -/
structure Config where
  data : Option Cmap
  filepath : Option (List Char)
  opened : Bool
  deriving DecidableEq

/-- The default constructor: an allocated empty map, no path, closed. -/
def Config.init : Config := ⟨some .nil, Option.none, false⟩

/-- `Config::get`: throws when `data` is null, otherwise returns the
stored value or a default (`None`) value; a `const` method, so the
document is unchanged. -/
def Config.get (c : Config) (name : Key) : Except (List Char) ConfigObject :=
  match c.data with
  | Option.none =>
    .error ['n', 'o', 't', ' ', 'i', 'n', 'i', 't']
  | some m =>
    match lookupC name m with
    | some v => .ok v
    | Option.none => .ok .cnone

/-- `Config::operator[](const std::string&)`: `return get(name);` — the
result is `get`'s result (a copy of the stored value), and the body
performs no writes, so the document state is returned unchanged. -/
def Config.subscript (c : Config) (name : Key) :
    Except (List Char) ConfigObject × Config :=
  (Config.get c name, c)

/-- `Config::set` (all overloads funnel to `(*data)[name] = value`).
Unreachable on a null `data` (the source would dereference null). -/
def Config.set (c : Config) (name : Key) (v : ConfigObject) : Config :=
  { c with data := c.data.map (insertC name v) }

/-- `Config::add_impl`: when `name` is present and holds an Array, the
source fetches `get_as<std::shared_ptr<std::vector<ConfigObject>>>()`,
which matches none of the `if constexpr` branches of `get_as` and is
therefore always `nullopt`; the guarded `push_back` never executes and
the call leaves the document unchanged.  In every other case it falls
through to `set`. -/
def Config.add_impl (c : Config) (name : Key) (v : ConfigObject) : Config :=
  match c.data with
  | Option.none => c
  | some m =>
    match lookupC name m with
    | some (.array _) => c
    | _ => Config.set c name v

/-- `Config::remove`: `data->erase(name)`. -/
def Config.remove (c : Config) (name : Key) : Config :=
  { c with data := c.data.map (Cmap.eraseKey name) }

/-- `Config::close`: clear the map (the pointer stays allocated), unbind
the path, mark closed. -/
def Config.close (c : Config) : Config :=
  { data := c.data.map (fun _ => .nil), filepath := Option.none, opened := false }

/-- The observable outcome of `Config::open`: normal return with the new
state, a thrown exception with the state left behind, or a
non-terminating parse. -/
inductive OpenRes where
  | ok (c : Config)
  | fail (c : Config)
  | timeout
  deriving DecidableEq

/-- `Config::open(path)`: `content` is what `read_file` would produce
(`Option.none` models an I/O failure: `read_file` throws before any state
is modified).  On a successful parse, `data` is the parsed map, the path
is bound and `opened` is set.  When `parse_content` throws on a bad
numeric token, `data` has already been reset and filled with the pairs
parsed before the error; the exception is re-wrapped and re-thrown by
`open`, so `filepath` and `opened` keep their prior values. -/
def Config.openOp (c : Config) (content : Option (List Char))
    (path : List Char) (fuel : Nat) : OpenRes :=
  match content with
  | Option.none => .fail c
  | some text =>
    match parse_content fuel text with
    | .ok m => .ok { data := some m, filepath := some path, opened := true }
    | .err _ sofar => .fail { c with data := some sofar }
    | .timeout => .timeout

/-- The document states reachable through the public `Config` API from a
default-constructed document (no moves, which the repository never
performs and which would steal the `data` pointer). -/
inductive Reachable : Config → Prop where
  | init : Reachable Config.init
  | set : ∀ {c} (n : Key) (v : ConfigObject), Reachable c → Reachable (Config.set c n v)
  | add : ∀ {c} (n : Key) (v : ConfigObject), Reachable c → Reachable (Config.add_impl c n v)
  | remove : ∀ {c} (n : Key), Reachable c → Reachable (Config.remove c n)
  | close : ∀ {c}, Reachable c → Reachable (Config.close c)
  | openOk : ∀ {c c'} (content : Option (List Char)) (path : List Char) (fuel : Nat),
      Reachable c → Config.openOp c content path fuel = .ok c' → Reachable c'
  | openFail : ∀ {c c'} (content : Option (List Char)) (path : List Char) (fuel : Nat),
      Reachable c → Config.openOp c content path fuel = .fail c' → Reachable c'

/-! ## Auxiliary definitions for the statements below -/

/-- A numeric token on which the scanned conversion throws: `stod` when
the token contains a `.` (the `has_decimal` flag), else `stoll`. -/
def numTokenFails (tok : List Char) : Prop :=
  if '.' ∈ tok then stodM tok = Option.none else stollM tok = Option.none

/-- The remainder of the input after a written value, as the loops see it:
empty, or starting with a character outside the numeric scan set (so a
numeric token never leaks into it). -/
def numSafe : List Char → Bool
  | [] => true
  | c :: _ => !numChar c

/-- No `*/` terminator occurs inside the text: the body of a block
comment whose scan does not stop early. -/
def noStarSlash : List Char → Bool
  | [] => true
  | [_] => true
  | c1 :: c2 :: r => !(c1 = '*' && c2 = '/') && noStarSlash (c2 :: r)

/-- Concatenation of association sequences (used only to state that the
parse loop extends its accumulator at the end). -/
def Cmap.appendM : Cmap → Cmap → Cmap
  | .nil, b => b
  | .cons k v r, b => .cons k v (Cmap.appendM r b)

/-- Every key of `m` is strictly `keyLt`-below `k`. -/
def keysBelow : Cmap → Key → Bool
  | .nil, _ => true
  | .cons k' _ r, k => keyLt k' k && keysBelow r k

/-- Every key of `m` is strictly `keyLt`-above `k`. -/
def ltAllKeys (k : Key) : Cmap → Bool
  | .nil => true
  | .cons k' _ rest => keyLt k k' && ltAllKeys k rest



/-! ## Association-sequence lemmas -/

theorem dropWhile_len_le (p : α → Bool) (l : List α) :
    (l.dropWhile p).length ≤ l.length := by
  induction l with
  | nil => simp [List.dropWhile]
  | cons c r ih =>
    simp only [List.dropWhile]
    cases p c <;> simp <;> omega

theorem lookupC_insertC_self (k : Key) (v : ConfigObject) :
    ∀ m : Cmap, lookupC k (insertC k v m) = some v
  | .nil => by simp [insertC, lookupC]
  | .cons k' v' rest => by
    by_cases h1 : keyLt k k' = true
    · simp [insertC, h1, lookupC]
    · by_cases h2 : k = k'
      · subst h2; simp [insertC, h1, lookupC]
      · simp [insertC, h1, h2, lookupC, lookupC_insertC_self k v rest]

theorem lookupC_insertC_ne (k n : Key) (hkn : k ≠ n) (v : ConfigObject) :
    ∀ m : Cmap, lookupC k (insertC n v m) = lookupC k m
  | .nil => by simp [insertC, lookupC, hkn]
  | .cons k' v' rest => by
    by_cases h1 : keyLt n k' = true
    · simp [insertC, h1, lookupC, hkn]
    · by_cases h2 : n = k'
      · subst h2
        simp [insertC, h1, lookupC, hkn]
      · simp only [insertC, h1, h2, if_false, ite_false, lookupC]
        by_cases h3 : k = k' <;>
          simp [h3, lookupC_insertC_ne k n hkn v rest]

/-- Every API operation keeps the `data` pointer allocated. -/
theorem reachable_data_isSome {c : Config} (h : Reachable c) :
    ∃ m, c.data = some m := by
  induction h with
  | init => exact ⟨.nil, rfl⟩
  | set n v _ ih =>
    obtain ⟨m, hm⟩ := ih
    exact ⟨insertC n v m, by simp [Config.set, hm]⟩
  | add n v _ ih =>
    rename_i c _
    obtain ⟨m, hm⟩ := ih
    simp only [Config.add_impl, hm]
    cases hl : lookupC n m with
    | none => exact ⟨insertC n v m, by simp [Config.set, hm]⟩
    | some w =>
      cases w <;> simp [Config.set, hm] <;> exact ⟨_, rfl⟩
  | remove n _ ih =>
    obtain ⟨m, hm⟩ := ih
    exact ⟨Cmap.eraseKey n m, by simp [Config.remove, hm]⟩
  | close _ ih =>
    obtain ⟨m, hm⟩ := ih
    exact ⟨.nil, by simp [Config.close, hm]⟩
  | openOk content path fuel _ hop _ =>
    cases content with
    | none => simp [Config.openOp] at hop
    | some text =>
      simp only [Config.openOp] at hop
      cases hpc : parse_content fuel text with
      | ok m =>
        rw [hpc] at hop
        cases hop
        exact ⟨m, rfl⟩
      | err tok sofar => rw [hpc] at hop; simp at hop
      | timeout => rw [hpc] at hop; simp at hop
  | openFail content path fuel _ hop ih =>
    cases content with
    | none =>
      simp only [Config.openOp, OpenRes.fail.injEq] at hop
      exact hop ▸ ih
    | some text =>
      simp only [Config.openOp] at hop
      cases hpc : parse_content fuel text with
      | ok m => rw [hpc] at hop; simp at hop
      | err tok sofar =>
        rw [hpc] at hop
        cases hop
        exact ⟨sofar, rfl⟩
      | timeout => rw [hpc] at hop; simp at hop

/-! ## Claim C6 -/

/-- C6: indexing a `None`-tagged value by the string key `"x"` turns it
into an Object with the single key `"x"` bound to `None`; indexing a
`None`-tagged value by the integer index `2` turns it into an Array of
length 3 whose elements at indices 0 and 1 (and 2) are `None`, keeping
the array dense. -/
theorem claim6_lazy_materialization :
    ConfigObject.subscriptKey .cnone ['x'] = .object (Cmap.ofList [(['x'], .cnone)]) ∧
    ConfigObject.subscriptIndex .cnone 2 =
      .array (Carr.ofList [.cnone, .cnone, .cnone]) := by
  exact ⟨by decide, by decide⟩

/-! ## Claim C4 -/

/-- C4 counterexample: the source recognizes the literal tokens by a
4-or-5-character prefix match (`content.substr(pos, 4) == "None"` etc.),
so an input whose letters begin a longer bare word IS parsed as the
literal: `truely` parses as the Boolean `true` with `ly` left over, and
`Nones` parses as `None` with `s` left over — refuting the claim that
only the exact tokens are recognized. -/
theorem claim4_counterexample :
    parse_value 2 ('t' :: 'r' :: 'u' :: 'e' :: 'l' :: 'y' :: []) =
      .ok (.boolean true) ('l' :: 'y' :: []) ∧
    parse_value 2 ('N' :: 'o' :: 'n' :: 'e' :: 's' :: []) =
      .ok .cnone ('s' :: []) := by
  exact ⟨by decide, by decide⟩

/-- C4 (amended): the parser recognizes `None`, `true` and `false` by
prefix: whenever the next four (resp. five) characters of the remaining
input are exactly these letters, it returns the corresponding literal and
consumes exactly those characters, regardless of what follows — even when
the letters begin a longer bare word. -/
theorem claim4_literal_prefix_match (f : Nat) (r : List Char) :
    parse_value (f + 1) ('N' :: 'o' :: 'n' :: 'e' :: r) = .ok .cnone r ∧
    parse_value (f + 1) ('t' :: 'r' :: 'u' :: 'e' :: r) = .ok (.boolean true) r ∧
    parse_value (f + 1) ('f' :: 'a' :: 'l' :: 's' :: 'e' :: r) =
      .ok (.boolean false) r := by
  refine ⟨?_, ?_, ?_⟩ <;> rfl

/-! ## Claim C5 -/

/-- C5 counterexample: requesting Float from the Integer-tagged value
`2^53 + 1 = 9007199254740993` does NOT widen losslessly:
`static_cast<double>` rounds it to the nearest representable double,
`2^53 = 9007199254740992`. -/
theorem claim5_counterexample :
    ConfigObject.get_as_float (.number 9007199254740993) =
      some ((9007199254740992 : ℚ)) ∧
    ((9007199254740992 : ℚ)) ≠ (((9007199254740993 : Int) : ℚ)) := by
  exact ⟨by decide, by decide⟩

/-- C5 (amended): each typed getter totally returns either the coerced
payload or no value: Float requested from an Integer-tagged value widens
to the nearest IEEE double — lossless whenever the magnitude is at most
`2^53`; Integer requested from a Float-tagged value truncates toward zero
(floor for non-negative, ceiling for negative), but only when that
truncation is representable in `long long` — outside `[-2^63, 2^63 - 1]`
the source's `static_cast<long long>(double)` is undefined behavior, so
there is no defined result (the model yields no value); String requested
from a Character-tagged value yields the length-1 string; Character
requested from a String-tagged value succeeds exactly on length-1
strings; every other cross-tag request yields no value. -/
theorem claim5_typed_getters :
    (∀ v : ConfigObject,
      ConfigObject.get_as_float v =
        (match v with
         | .float q => some q
         | .number n => some (int64ToDouble n)
         | _ => Option.none) ∧
      ConfigObject.get_as_number v =
        (match v with
         | .number n => some n
         | .float q =>
           if -(2 ^ 63) ≤ (if q < 0 then ⌈q⌉ else ⌊q⌋) ∧
               (if q < 0 then ⌈q⌉ else ⌊q⌋) ≤ 2 ^ 63 - 1 then
             some (if q < 0 then ⌈q⌉ else ⌊q⌋)
           else Option.none
         | _ => Option.none) ∧
      ConfigObject.get_as_boolean v =
        (match v with
         | .boolean b => some b
         | _ => Option.none) ∧
      ConfigObject.get_as_string v =
        (match v with
         | .str s => some s
         | .character c => some [c]
         | _ => Option.none) ∧
      ConfigObject.get_as_character v =
        (match v with
         | .character c => some c
         | .str [c] => some c
         | _ => Option.none)) ∧
    (∀ n : Int, n.natAbs ≤ 2 ^ 53 → int64ToDouble n = (n : ℚ)) := by
  constructor
  · intro v
    have hts : ∀ q : ℚ, (if q < 0 then -((-q).floor) else q.floor) =
        (if q < 0 then ⌈q⌉ else ⌊q⌋) := by
      intro q
      by_cases h : q < 0
      · simp only [h, if_true]
        have h2 : (-q).floor = ⌊-q⌋ := rfl
        rw [h2, Int.floor_neg, neg_neg]
      · simp only [h, if_false]
        rfl
    have htr : ∀ q : ℚ, truncDouble q =
        (if -(2 ^ 63) ≤ (if q < 0 then ⌈q⌉ else ⌊q⌋) ∧
            (if q < 0 then ⌈q⌉ else ⌊q⌋) ≤ 2 ^ 63 - 1 then
          some (if q < 0 then ⌈q⌉ else ⌊q⌋)
        else Option.none) := by
      intro q
      simp only [truncDouble]
      rw [hts q]
    refine ⟨?_, ?_, ?_, ?_, ?_⟩ <;>
      cases v <;>
        simp only [ConfigObject.get_as_float, ConfigObject.get_as_number,
          ConfigObject.get_as_boolean, ConfigObject.get_as_string,
          ConfigObject.get_as_character, htr]
    rename_i s
    cases s with
    | nil => rfl
    | cons c r => cases r <;> rfl
  · intro n h
    simp only [int64ToDouble]
    rw [if_pos h]

/-- C5 witness: the theorem evaluated at the Integer-tagged value 3 (the
getter table) and at the integer 3 (the lossless-widening bound). -/
theorem claim5_witness :
    ConfigObject.get_as_float (.number 3) = some (int64ToDouble 3) ∧
    int64ToDouble 3 = ((3 : Int) : ℚ) := by
  constructor
  · exact (claim5_typed_getters.1 (.number 3)).1
  · exact claim5_typed_getters.2 3 (by decide)

/-! ## Claim C2 -/

/-- C2: the code violates the claim.  Starting from a reachable document
whose mapping is `old = 7`, a failed `open` on the content `a: 1, b: +`
(the numeric token `+` throws inside `parse_content`) leaves the document
mapping equal to `a = 1` — a strict prefix of the new content's pairs:
neither the untouched prior mapping nor an atomically reset one.
`parse_content` resets `data` before parsing and the exception escapes
mid-loop. -/
theorem claim2_open_leaves_partial_mapping :
    Config.openOp (Config.set Config.init ['o', 'l', 'd'] (.number 7))
        (some ("a: 1, b: +".toList)) ['p'] 20 =
      .fail ⟨some (Cmap.ofList [(['a'], .number 1)]), Option.none, false⟩ ∧
    (Config.set Config.init ['o', 'l', 'd'] (.number 7)).data =
      some (Cmap.ofList [(['o', 'l', 'd'], .number 7)]) ∧
    (some (Cmap.ofList [(['a'], .number 1)]) : Option Cmap) ≠
      (Config.set Config.init ['o', 'l', 'd'] (.number 7)).data ∧
    (some (Cmap.ofList [(['a'], .number 1)]) : Option Cmap) ≠ some .nil := by
  refine ⟨by decide, by decide, by decide, by decide⟩

/-! ## Claim C7 -/

/-- C7: the code violates the claim.  When `name` holds an Array-tagged
value, `add(name, v)` neither appends nor sets: the append branch fetches
`get_as<std::shared_ptr<std::vector<ConfigObject>>>()`, which matches no
`if constexpr` branch of `get_as` and always returns `nullopt`, so its
guarded `push_back` is dead code and the document is returned unchanged —
the binding at `name` is still the original array without `v`.  In every
other situation (absent key, or a non-Array value at `name`) `add` does
behave exactly like `set`, as the claim says. -/
theorem claim7_add_noop_on_arrays (c : Config) (m : Cmap)
    (hm : c.data = some m) (name : Key) (v : ConfigObject) :
    (∀ xs : Carr, lookupC name m = some (.array xs) →
      Config.add_impl c name v = c ∧
      lookupC name ((Config.add_impl c name v).data.getD .nil) =
        some (.array xs)) ∧
    ((match lookupC name m with
      | some (.array _) => false
      | _ => true) = true →
      Config.add_impl c name v = Config.set c name v) := by
  constructor
  · intro xs hxs
    have h1 : Config.add_impl c name v = c := by
      simp [Config.add_impl, hm, hxs]
    refine ⟨h1, ?_⟩
    rw [h1, hm]
    exact hxs
  · intro hno
    cases hl : lookupC name m with
    | none => simp [Config.add_impl, hm, hl]
    | some w =>
      cases w with
      | array xs =>
        rw [hl] at hno
        simp at hno
      | cnone => simp [Config.add_impl, hm, hl]
      | number n => simp [Config.add_impl, hm, hl]
      | float q => simp [Config.add_impl, hm, hl]
      | boolean b => simp [Config.add_impl, hm, hl]
      | str s2 => simp [Config.add_impl, hm, hl]
      | character ch => simp [Config.add_impl, hm, hl]
      | object om => simp [Config.add_impl, hm, hl]

/-- C7 witness: on the concrete document with `k = [5]` and `w = true`,
`add("k", 7)` returns the document unchanged and the array at `k` is
still `[5]` (no append), while `add("w", 7)` behaves exactly like
`set("w", 7)`. -/
theorem claim7_witness :
    (Config.add_impl
        ⟨some (Cmap.ofList [(['k'], .array (Carr.ofList [.number 5])),
                            (['w'], .boolean true)]), Option.none, false⟩
        ['k'] (.number 7) =
      ⟨some (Cmap.ofList [(['k'], .array (Carr.ofList [.number 5])),
                          (['w'], .boolean true)]), Option.none, false⟩ ∧
     lookupC ['k']
        ((Config.add_impl
          ⟨some (Cmap.ofList [(['k'], .array (Carr.ofList [.number 5])),
                              (['w'], .boolean true)]), Option.none, false⟩
          ['k'] (.number 7)).data.getD .nil) =
        some (.array (Carr.ofList [.number 5]))) ∧
    Config.add_impl
        ⟨some (Cmap.ofList [(['k'], .array (Carr.ofList [.number 5])),
                            (['w'], .boolean true)]), Option.none, false⟩
        ['w'] (.number 7) =
      Config.set
        ⟨some (Cmap.ofList [(['k'], .array (Carr.ofList [.number 5])),
                            (['w'], .boolean true)]), Option.none, false⟩
        ['w'] (.number 7) := by
  refine ⟨?_, ?_⟩
  · exact (claim7_add_noop_on_arrays _ _ rfl ['k'] (.number 7)).1
      (Carr.ofList [.number 5]) (by decide)
  · exact (claim7_add_noop_on_arrays _ _ rfl ['w'] (.number 7)).2 (by decide)

/-! ## Claim C3 -/

theorem dropWhile_append_of_all (p : Char → Bool) (pre l : List Char)
    (h : ∀ c ∈ pre, p c = true) :
    List.dropWhile p (pre ++ l) = List.dropWhile p l := by
  induction pre with
  | nil => rfl
  | cons c r ih =>
    simp only [List.cons_append, List.dropWhile]
    rw [h c (by simp)]
    exact ih (fun c hc => h c (by simp [hc]))

theorem skipWs_append_ws (ws s : List Char) (h : ∀ c ∈ ws, isspaceB c = true) :
    skipWs (ws ++ s) = skipWs s :=
  dropWhile_append_of_all isspaceB ws s h

theorem skipWs_cons_not (c : Char) (s : List Char) (h : isspaceB c = false) :
    skipWs (c :: s) = c :: s := by
  simp only [skipWs, List.dropWhile, h]

/-- `parse_value` begins with `skip_whitespace`, so a whitespace prefix is
irrelevant. -/
theorem parse_value_ws (f : Nat) (ws s : List Char)
    (h : ∀ c ∈ ws, isspaceB c = true) :
    parse_value f (ws ++ s) = parse_value f s := by
  cases f with
  | zero => rfl
  | succ f => simp only [parse_value, skipWs_append_ws ws s h]

/-- `parse_key` begins with `skip_whitespace`, so a whitespace prefix is
irrelevant. -/
theorem parseKey_ws (ws s : List Char) (h : ∀ c ∈ ws, isspaceB c = true) :
    parseKey (ws ++ s) = parseKey s := by
  simp only [parseKey, skipWs_append_ws ws s h]

/-- The comment-skipping loop computes the same result under any adequate
fuel. -/
theorem skipCommentsF_congr :
    ∀ f g (s : List Char), s.length < f → s.length < g →
      skipCommentsF f s = skipCommentsF g s := by
  intro f
  induction f with
  | zero => intro g s hf; omega
  | succ f ih =>
    intro g s hf hg
    cases g with
    | zero => omega
    | succ g =>
      simp only [skipCommentsF]
      cases s with
      | nil => rfl
      | cons c r =>
        by_cases hc : c = '/'
        · subst hc
          simp only []
          by_cases hlt : (skipComment ('/' :: r)).length < ('/' :: r).length
          · simp only [hlt, if_true]
            refine ih g (skipWs (skipComment ('/' :: r))) ?_ ?_
            · have h1 := dropWhile_len_le isspaceB (skipComment ('/' :: r))
              simp only [skipWs]
              omega
            · have h1 := dropWhile_len_le isspaceB (skipComment ('/' :: r))
              simp only [skipWs]
              omega
          · simp only [hlt, if_false]
        · split
          · rename_i heq
            injection heq with h1 h2
            exact absurd h1 hc
          · rfl

/-- Skipping a single-line comment ahead of the input: the loop discards
`// …` up to the newline and continues on what follows. -/
theorem skipComments_line_comment (cmt s : List Char) (h : '\n' ∉ cmt) :
    skipComments (('/' :: '/' :: cmt) ++ '\n' :: s) = skipComments (skipWs s) := by
  have hcomment : skipComment (('/' :: '/' :: cmt) ++ '\n' :: s) = '\n' :: s := by
    simp only [List.cons_append, skipComment, skipLineComment]
    have : List.dropWhile (fun c => c ≠ '\n')
        (('/' :: '/' :: cmt) ++ '\n' :: s) = List.dropWhile (fun c => c ≠ '\n') ('\n' :: s) := by
      refine dropWhile_append_of_all _ _ _ ?_
      intro c hc
      simp only [List.mem_cons] at hc
      rcases hc with rfl | rfl | hc
      · simp
      · simp
      · simp only [decide_eq_true_eq]
        exact fun heq => h (heq ▸ hc)
    simp only [List.cons_append] at this
    rw [this]
    simp [List.dropWhile]
  have hlen : ('\n' :: s).length < (('/' :: '/' :: cmt) ++ '\n' :: s).length := by
    simp
    omega
  simp only [skipComments]
  have hstep : skipCommentsF ((('/' :: '/' :: cmt) ++ '\n' :: s).length + 1)
      (('/' :: '/' :: cmt) ++ '\n' :: s) =
      skipCommentsF ((('/' :: '/' :: cmt) ++ '\n' :: s).length)
        (skipWs ('\n' :: s)) := by
    simp only [List.cons_append, skipCommentsF]
    simp only [← List.cons_append, hcomment]
    simp only [List.cons_append] at hlen ⊢
    rw [if_pos hlen]
  rw [hstep]
  have hns : skipWs ('\n' :: s) = skipWs s := by
    simp [skipWs, List.dropWhile, isspaceB]
  rw [hns]
  refine skipCommentsF_congr _ _ _ ?_ ?_
  · have h1 := dropWhile_len_le isspaceB s
    simp only [skipWs, List.length_append, List.length_cons]
    omega
  · have h1 := dropWhile_len_le isspaceB s
    simp only [skipWs]
    omega

/-- The block-comment scan runs through a terminator-free body and stops
exactly at the closing `*/`, consuming it. -/
theorem skipBlockAux_through :
    ∀ (cmt s : List Char), noStarSlash cmt = true →
      skipBlockAux (cmt ++ '*' :: '/' :: s) = s
  | [], s, _ => by
    show skipBlockAux ('*' :: '/' :: s) = s
    rfl
  | [c], s, _ => by
    show skipBlockAux (c :: '*' :: '/' :: s) = s
    rw [show skipBlockAux (c :: '*' :: '/' :: s) =
      (if c = '*' ∧ '*' = '/' then '/' :: s
       else skipBlockAux ('*' :: '/' :: s)) from rfl]
    rw [if_neg (by intro hcc; exact absurd hcc.2 (by decide))]
    rfl
  | c1 :: c2 :: r, s, h => by
    simp only [noStarSlash, Bool.and_eq_true, Bool.not_eq_true'] at h
    have hne : ¬(c1 = '*' ∧ c2 = '/') := by
      intro hcc
      obtain ⟨ha, hb⟩ := hcc
      subst ha
      subst hb
      exact absurd h.1 (by decide)
    show skipBlockAux (c1 :: c2 :: (r ++ '*' :: '/' :: s)) = s
    rw [show skipBlockAux (c1 :: c2 :: (r ++ '*' :: '/' :: s)) =
      (if c1 = '*' ∧ c2 = '/' then r ++ '*' :: '/' :: s
       else skipBlockAux (c2 :: (r ++ '*' :: '/' :: s))) from rfl]
    rw [if_neg hne]
    exact skipBlockAux_through (c2 :: r) s h.2

/-- `skip_comment` on a `/*`-opened, properly terminated comment consumes
it entirely. -/
theorem skipComment_block (cmt s : List Char) (h : noStarSlash cmt = true) :
    skipComment (('/' :: '*' :: cmt) ++ '*' :: '/' :: s) = s := by
  simp only [List.cons_append, skipComment]
  exact skipBlockAux_through cmt s h

/-- Skipping a block comment ahead of the input: the comment loop
discards `/* … */` and continues on what follows. -/
theorem skipComments_block_comment (cmt s : List Char)
    (h : noStarSlash cmt = true) :
    skipComments (('/' :: '*' :: cmt) ++ '*' :: '/' :: s) =
      skipComments (skipWs s) := by
  have hcomment : skipComment (('/' :: '*' :: cmt) ++ '*' :: '/' :: s) = s :=
    skipComment_block cmt s h
  have hlen : s.length < (('/' :: '*' :: cmt) ++ '*' :: '/' :: s).length := by
    simp
    omega
  simp only [skipComments]
  have hstep : skipCommentsF ((('/' :: '*' :: cmt) ++ '*' :: '/' :: s).length + 1)
      (('/' :: '*' :: cmt) ++ '*' :: '/' :: s) =
      skipCommentsF ((('/' :: '*' :: cmt) ++ '*' :: '/' :: s).length)
        (skipWs s) := by
    simp only [List.cons_append, skipCommentsF]
    simp only [← List.cons_append, hcomment]
    simp only [List.cons_append] at hlen ⊢
    rw [if_pos hlen]
  rw [hstep]
  refine skipCommentsF_congr _ _ _ ?_ ?_
  · have h1 := dropWhile_len_le isspaceB s
    simp only [skipWs, List.length_append, List.length_cons]
    omega
  · have h1 := dropWhile_len_le isspaceB s
    simp only [skipWs]
    omega

/-- C3 counterexample: a comment between `k:` and its value is NOT
skipped: `k: //c\n1` parses to the two pairs `1 = None` and `k = None`
(the comment text derails the value parse and `1` becomes a key), while
the comment-free `k: 1` parses to `k = 1` — refuting the claim that
whitespace AND comments are skipped at every token boundary (in
particular before a value) with the skipped comments not retained. -/
theorem claim3_counterexample :
    "k: //c\n1".toList = "k: ".toList ++ ('/' :: '/' :: ['c']) ++ '\n' :: ['1'] ∧
    parse_content 20 ("k: //c\n1".toList) =
      .ok (Cmap.ofList [(['1'], .cnone), (['k'], .cnone)]) ∧
    parse_content 20 ("k: 1".toList) =
      .ok (Cmap.ofList [(['k'], .number 1)]) := by
  refine ⟨by decide, by decide, by decide⟩

/-- C3 (amended): whitespace is skipped at every token boundary — before
each top-level key, before a value, and after a value before the
separator check — and comments, both `// …` line comments and `/* … */`
block comments, are skipped and not retained before EVERY top-level key
(the start of each iteration of the `parse_content` loop, whatever has
already been accumulated).  But comments are NOT skipped before a value,
nor before a key nested inside an object value: `parse_value` skips only
whitespace there, and a comment in that position is consumed as part of a
value or key token. -/
theorem claim3_skipping_boundaries :
    (∀ (f : Nat) (cmt s : List Char) (acc : Cmap), '\n' ∉ cmt →
      parseContentLoop f (('/' :: '/' :: cmt) ++ '\n' :: s) acc =
        parseContentLoop f s acc) ∧
    (∀ (f : Nat) (cmt s : List Char) (acc : Cmap), noStarSlash cmt = true →
      parseContentLoop f (('/' :: '*' :: cmt) ++ '*' :: '/' :: s) acc =
        parseContentLoop f s acc) ∧
    (∀ (f : Nat) (ws s : List Char), (∀ c ∈ ws, isspaceB c = true) →
      parse_value f (ws ++ s) = parse_value f s) ∧
    (∀ (ws s : List Char), (∀ c ∈ ws, isspaceB c = true) →
      parseKey (ws ++ s) = parseKey s) ∧
    (∀ (ws rest : List Char), (∀ c ∈ ws, isspaceB c = true) →
      (match skipWs (ws ++ rest) with | ',' :: r => r | t => t) =
        (match skipWs rest with | ',' :: r => r | t => t)) := by
  refine ⟨?_, ?_, ?_, ?_, ?_⟩
  · intro f cmt s acc hc
    cases f with
    | zero => rfl
    | succ f =>
      simp only [parseContentLoop]
      rw [if_neg (by simp)]
      have hws0 : skipWs (('/' :: '/' :: cmt) ++ '\n' :: s) =
          ('/' :: '/' :: cmt) ++ '\n' :: s := by
        simp only [List.cons_append]
        exact skipWs_cons_not '/' _ (by decide)
      rw [hws0, skipComments_line_comment cmt s hc]
      by_cases hs : s = []
      · subst hs
        simp [skipWs, skipComments, skipCommentsF, List.dropWhile]
      · rw [if_neg hs]
  · intro f cmt s acc hc
    cases f with
    | zero => rfl
    | succ f =>
      simp only [parseContentLoop]
      rw [if_neg (by simp)]
      have hws0 : skipWs (('/' :: '*' :: cmt) ++ '*' :: '/' :: s) =
          ('/' :: '*' :: cmt) ++ '*' :: '/' :: s := by
        simp only [List.cons_append]
        exact skipWs_cons_not '/' _ (by decide)
      rw [hws0, skipComments_block_comment cmt s hc]
      by_cases hs : s = []
      · subst hs
        simp [skipWs, skipComments, skipCommentsF, List.dropWhile]
      · rw [if_neg hs]
  · exact parse_value_ws
  · exact parseKey_ws
  · intro ws rest h
    rw [skipWs_append_ws ws rest h]

/-- C3 witness: concrete instances — a line comment and a block comment
each skipped before a top-level key mid-parse (with a nonempty
accumulated map), whitespace before a value, whitespace before a key, and
whitespace after a value before the comma check. -/
theorem claim3_witness :
    parseContentLoop 9 (('/' :: '/' :: ['c']) ++ '\n' :: "k: 1".toList)
        (Cmap.ofList [(['a'], .number 2)]) =
      parseContentLoop 9 "k: 1".toList (Cmap.ofList [(['a'], .number 2)]) ∧
    parseContentLoop 9 (('/' :: '*' :: ['b']) ++ '*' :: '/' :: "k: 1".toList)
        (Cmap.ofList [(['a'], .number 2)]) =
      parseContentLoop 9 "k: 1".toList (Cmap.ofList [(['a'], .number 2)]) ∧
    parse_value 3 ([' '] ++ ['1']) = parse_value 3 ['1'] ∧
    parseKey ([' '] ++ ['k']) = parseKey ['k'] ∧
    (match skipWs ([' '] ++ [',', 'x']) with | ',' :: r => r | t => t) =
      (match skipWs [',', 'x'] with | ',' :: r => r | t => t) :=
  ⟨claim3_skipping_boundaries.1 9 ['c'] _ _ (by decide),
   claim3_skipping_boundaries.2.1 9 ['b'] _ _ (by decide),
   claim3_skipping_boundaries.2.2.1 3 [' '] ['1'] (by decide),
   claim3_skipping_boundaries.2.2.2.1 [' '] ['k'] (by decide),
   claim3_skipping_boundaries.2.2.2.2 [' '] [',', 'x'] (by decide)⟩

/-! ## Claim C8 -/


theorem parseNumber_err {s tok : List Char} (h : parseNumber s = .err tok) :
    numTokenFails tok := by
  simp only [parseNumber] at h
  split at h
  · rename_i hdot
    split at h
    · simp at h
    · rename_i hstod
      injection h with h1
      subst h1
      simp only [numTokenFails, if_pos hdot]
      exact hstod
  · rename_i hdot
    split at h
    · simp at h
    · rename_i hstoll
      injection h with h1
      subst h1
      simp only [numTokenFails, if_neg hdot]
      exact hstoll

/-- Every error produced by the value parser (and its array/object loops)
is an `Invalid number` error on a failing numeric token. -/
theorem parse_err_numeric : ∀ f : Nat,
    (∀ s tok, parse_value f s = .err tok → numTokenFails tok) ∧
    (∀ s acc tok, parseArrayLoop f s acc = .err tok → numTokenFails tok) ∧
    (∀ s acc tok, parseObjectLoop f s acc = .err tok → numTokenFails tok) := by
  intro f
  induction f with
  | zero =>
    exact ⟨fun s tok h => by simp [parse_value] at h,
           fun s acc tok h => by simp [parseArrayLoop] at h,
           fun s acc tok h => by simp [parseObjectLoop] at h⟩
  | succ f ih =>
    refine ⟨?_, ?_, ?_⟩
    · intro s tok h
      simp only [parse_value] at h
      split at h
      · simp at h
      · simp at h
      · simp at h
      · simp at h
      · simp at h
      · simp at h
      · split at h
        · simp at h
        · rename_i heq
          injection h with h1
          subst h1
          exact ih.2.1 _ _ _ heq
        · simp at h
      · split at h
        · simp at h
        · rename_i heq
          injection h with h1
          subst h1
          exact ih.2.2 _ _ _ heq
        · simp at h
      · split at h
        · exact parseNumber_err h
        · simp at h
    · intro s acc tok h
      simp only [parseArrayLoop] at h
      split at h
      · simp at h
      · simp at h
      · split at h
        · rename_i heq
          injection h with h1
          subst h1
          exact ih.1 _ _ heq
        · simp at h
        · exact ih.2.1 _ _ _ h
    · intro s acc tok h
      simp only [parseObjectLoop] at h
      split at h
      · simp at h
      · simp at h
      · split at h
        · rename_i heq
          injection h with h1
          subst h1
          exact ih.1 _ _ heq
        · simp at h
        · exact ih.2.2 _ _ _ h

/-- Errors escaping the top-level pair loop are likewise numeric-token
errors. -/
theorem parseContentLoop_err :
    ∀ (f : Nat) (s : List Char) (acc : Cmap) (tok : List Char) (sofar : Cmap),
      parseContentLoop f s acc = .err tok sofar → numTokenFails tok := by
  intro f
  induction f with
  | zero => intro s acc tok sofar h; simp [parseContentLoop] at h
  | succ f ih =>
    intro s acc tok sofar h
    simp only [parseContentLoop] at h
    split at h
    · simp at h
    · split at h
      · simp at h
      · split at h
        · rename_i heq
          injection h with h1
          subst h1
          exact (parse_err_numeric f).1 _ _ heq
        · simp at h
        · exact ih _ _ _ _ h

/-- A numeric-token start (digit or sign) is never whitespace. -/
theorem numStart_not_ws (c : Char)
    (h : (isdigitB c || c = '-' || c = '+') = true) : isspaceB c = false := by
  cases hw : isspaceB c
  · rfl
  · exfalso
    simp only [isspaceB, Bool.or_eq_true, decide_eq_true_eq] at hw
    rcases hw with ((((rfl | rfl) | rfl) | rfl) | rfl) | rfl <;>
      exact absurd h (by decide)

/-- The array-element loop makes no progress on the unrecognized token
`:` (the inner `parse_value` consumes nothing and returns `None`), so the
source loops forever; in the fuel model every fuel times out. -/
theorem parseArrayLoop_colon_timeout :
    ∀ (f : Nat) (acc : Carr), parseArrayLoop f (':' :: []) acc = .timeout := by
  intro f
  induction f with
  | zero => intro acc; rfl
  | succ f ih =>
    intro acc
    cases f with
    | zero => rfl
    | succ g =>
      have hpv : parse_value (g + 1) (':' :: []) = .ok .cnone (':' :: []) := rfl
      simp only [parseArrayLoop, hpv]
      exact ih _

/-- A value whose first character is a digit or a sign is handled
exactly by the numeric branch of `parse_value`. -/
theorem parse_value_numeric_start (f : Nat) (c : Char) (r : List Char)
    (h : (isdigitB c || c = '-' || c = '+') = true) :
    parse_value (f + 1) (c :: r) = parseNumber (c :: r) := by
  simp only [parse_value, skipWs_cons_not c r (numStart_not_ws c h)]
  split
  · rename_i heq
    exact absurd heq (by simp)
  · rename_i heq
    injection heq with h1 h2
    subst h1
    exact absurd h (by decide)
  · rename_i heq
    injection heq with h1 h2
    subst h1
    exact absurd h (by decide)
  · rename_i heq
    injection heq with h1 h2
    subst h1
    exact absurd h (by decide)
  · rename_i heq
    injection heq with h1 h2
    subst h1
    exact absurd h (by decide)
  · rename_i heq
    injection heq with h1 h2
    subst h1
    exact absurd h (by decide)
  · rename_i heq
    injection heq with h1 h2
    subst h1
    exact absurd h (by decide)
  · rename_i heq
    injection heq with h1 h2
    subst h1
    exact absurd h (by decide)
  · rename_i heq
    injection heq with h1 h2
    subst h1 h2
    simp only [h, if_true]

set_option maxRecDepth 100000 in
/-- C8 counterexample: on the malformed input `[:` — an unterminated
array around an unrecognized token, which the claim says must degrade
gracefully to a default or truncated result without an error — the parse
neither returns nor errors: it is still looping after 1000 iterations
(and, by the amended theorem itself, after any number of iterations). -/
theorem claim8_counterexample :
    parse_value 1000 ('[' :: ':' :: []) = .timeout := by
  decide

/-- C8 (amended): a numeric token that fails integer/float conversion is
the only source of a parse error, and the error carries exactly the
offending token: every `.err tok` produced by `parse_value` or
`parse_content` satisfies `numTokenFails tok`, and a value whose first
character is a digit or sign is parsed exactly by the numeric branch.
However, not every other malformed input degrades gracefully to a default
or truncated result: on the unterminated array `[:` the element loop
makes no progress and the parse never terminates (every fuel times out). -/
theorem claim8_numeric_only_error :
    (∀ (f : Nat) (s tok : List Char),
      parse_value f s = .err tok → numTokenFails tok) ∧
    (∀ (f : Nat) (s tok : List Char) (sofar : Cmap),
      parse_content f s = .err tok sofar → numTokenFails tok) ∧
    (∀ (f : Nat) (c : Char) (r : List Char),
      (isdigitB c || c = '-' || c = '+') = true →
      parse_value (f + 1) (c :: r) = parseNumber (c :: r)) ∧
    (∀ f : Nat, parse_value f ('[' :: ':' :: []) = .timeout) := by
  refine ⟨?_, ?_, ?_, ?_⟩
  · intro f s tok h
    exact (parse_err_numeric f).1 s tok h
  · intro f s tok sofar h
    exact parseContentLoop_err f s .nil tok sofar h
  · exact parse_value_numeric_start
  · intro f
    cases f with
    | zero => rfl
    | succ f =>
      have h1 : skipWs ('[' :: ':' :: []) = '[' :: ':' :: [] := rfl
      have h2 : skipWs (':' :: []) = ':' :: [] := rfl
      simp only [parse_value, h1, h2, parseArrayLoop_colon_timeout f Carr.nil]

/-- C8 witness: the theorem applied at the concrete failing numeric
tokens `+` (value level and document level) and at the concrete
digit-started value `4x`. -/
theorem claim8_witness :
    numTokenFails ['+'] ∧
    numTokenFails ['-'] ∧
    parse_value 3 ('4' :: 'x' :: []) = parseNumber ('4' :: 'x' :: []) :=
  ⟨claim8_numeric_only_error.1 2 ['+'] ['+'] (by decide),
   claim8_numeric_only_error.2.1 3 ("k: -".toList) ['-'] Cmap.nil (by decide),
   claim8_numeric_only_error.2.2.1 2 '4' ['x'] (by decide)⟩

/-! ## Claim C9 -/

/-- C9: on every document state reachable through the public API,
`get(name)` never fails (the `data` pointer is allocated in every such
state, so the `Config not initialized` throw is unreachable), returns the
stored value when `name` is present and a `None`-tagged value otherwise;
`get` is `const`, so it modifies nothing and in particular never inserts
the key. -/
theorem claim9_get_total {c : Config} (h : Reachable c) (name : Key) :
    ∃ m, c.data = some m ∧
      Config.get c name = .ok ((lookupC name m).getD .cnone) := by
  obtain ⟨m, hm⟩ := reachable_data_isSome h
  refine ⟨m, hm, ?_⟩
  simp only [Config.get, hm]
  cases lookupC name m <;> simp

/-- C9 witness: the theorem applied to the freshly constructed document
and the key `k`. -/
theorem claim9_witness :
    ∃ m, Config.init.data = some m ∧
      Config.get Config.init ['k'] = .ok ((lookupC ['k'] m).getD .cnone) :=
  claim9_get_total Reachable.init ['k']

/-! ## Claim C10 -/

/-- C10: `Config::operator[](name)` is `return get(name);` — it returns
the same (copied) value as `get`, a `None`-tagged value when the key is
absent, and leaves the document (in particular the top-level mapping)
unchanged: unlike `ConfigObject::operator[]`, it never inserts the key
and never coerces any tag. -/
theorem claim10_subscript_is_get (c : Config) (name : Key) (m : Cmap)
    (hm : c.data = some m) :
    (Config.subscript c name).1 = Config.get c name ∧
    (Config.subscript c name).2 = c ∧
    (Config.subscript c name).1 = .ok ((lookupC name m).getD .cnone) ∧
    (Config.subscript c name).2.data = some m := by
  refine ⟨rfl, rfl, ?_, hm⟩
  simp only [Config.subscript, Config.get, hm]
  cases lookupC name m <;> simp

/-- C10 witness: the theorem applied to a one-entry document and an
absent key. -/
theorem claim10_witness :
    (Config.subscript ⟨some (Cmap.ofList [(['a'], .number 1)]), Option.none, false⟩
        ['b']).1 =
      .ok ((lookupC ['b'] (Cmap.ofList [(['a'], .number 1)])).getD .cnone) ∧
    (Config.subscript ⟨some (Cmap.ofList [(['a'], .number 1)]), Option.none, false⟩
        ['b']).2.data = some (Cmap.ofList [(['a'], .number 1)]) :=
  ⟨(claim10_subscript_is_get _ ['b'] _ rfl).2.2.1,
   (claim10_subscript_is_get _ ['b'] _ rfl).2.2.2⟩

/-! ## Token and association-sequence lemmas (serving claim C1's scalar
round-trip and the loop-step facts) -/


theorem takeWhile_append_of_all (p : Char → Bool) (pre l : List Char)
    (h : ∀ c ∈ pre, p c = true) :
    List.takeWhile p (pre ++ l) = pre ++ List.takeWhile p l := by
  induction pre with
  | nil => rfl
  | cons c r ih =>
    simp only [List.cons_append, List.takeWhile]
    rw [h c (by simp)]
    simp only [List.cons.injEq, true_and]
    exact ih (fun c hc => h c (by simp [hc]))

theorem takeWhile_all (p : Char → Bool) (l : List Char)
    (h : ∀ c ∈ l, p c = true) : List.takeWhile p l = l := by
  have h2 := takeWhile_append_of_all p l [] h
  simpa using h2

theorem takeWhile_numSafe (l : List Char) (h : numSafe l = true) :
    List.takeWhile numChar l = [] := by
  cases l with
  | nil => rfl
  | cons c r =>
    simp only [numSafe, Bool.not_eq_true'] at h
    simp [List.takeWhile, h]

theorem dropWhile_numSafe (l : List Char) (h : numSafe l = true) :
    List.dropWhile numChar l = l := by
  cases l with
  | nil => rfl
  | cons c r =>
    simp only [numSafe, Bool.not_eq_true'] at h
    simp [List.dropWhile, h]

theorem dropWhile_cons_not (p : Char → Bool) (c : Char) (r : List Char)
    (h : p c = false) : List.dropWhile p (c :: r) = c :: r := by
  simp [List.dropWhile, h]

theorem keyLt_irrefl : ∀ k : Key, keyLt k k = false
  | [] => rfl
  | a :: as => by
    simp only [keyLt]
    rw [if_neg (by omega), if_neg (by omega)]
    exact keyLt_irrefl as

theorem keyLt_asymm : ∀ a b : Key, keyLt a b = true → keyLt b a = false
  | [], [] => by simp [keyLt]
  | [], _ :: _ => by intro h; simp [keyLt]
  | _ :: _, [] => by simp [keyLt]
  | a :: as, b :: bs => by
    intro h
    simp only [keyLt] at h ⊢
    by_cases h1 : a.toNat < b.toNat
    · rw [if_neg (by omega), if_pos h1]
    · rw [if_neg h1] at h
      by_cases h2 : b.toNat < a.toNat
      · rw [if_pos h2] at h
        exact absurd h (by simp)
      · rw [if_neg h2] at h
        rw [if_neg h2, if_neg h1]
        exact keyLt_asymm as bs h

theorem keyLt_ne (a b : Key) (h : keyLt a b = true) : a ≠ b := by
  intro heq
  subst heq
  rw [keyLt_irrefl a] at h
  exact Bool.noConfusion h


/-- Inserting a key above all existing keys appends at the end. -/
theorem insertC_append_last (k : Key) (v : ConfigObject) :
    ∀ m : Cmap, keysBelow m k = true →
      insertC k v m = Cmap.appendM m (.cons k v .nil)
  | .nil, _ => rfl
  | .cons k' v' r, h => by
    simp only [keysBelow, Bool.and_eq_true] at h
    obtain ⟨h1, h2⟩ := h
    simp only [insertC, Cmap.appendM]
    rw [if_neg (by simp [keyLt_asymm k' k h1]),
      if_neg (Ne.symm (keyLt_ne k' k h1))]
    rw [insertC_append_last k v r h2]

theorem keysBelow_appendM : ∀ (m : Cmap) (k' : Key) (v' : ConfigObject) (k : Key),
    keysBelow m k = true → keyLt k' k = true →
    keysBelow (Cmap.appendM m (.cons k' v' .nil)) k = true
  | .nil, k', v', k, h1, h2 => by simp [Cmap.appendM, keysBelow, h2]
  | .cons k2 v2 r, k', v', k, h1, h2 => by
    simp only [keysBelow, Bool.and_eq_true] at h1
    simp only [Cmap.appendM, keysBelow, Bool.and_eq_true]
    exact ⟨h1.1, keysBelow_appendM r k' v' k h1.2 h2⟩

theorem Carr.append_nil : ∀ a : Carr, Carr.append a .nil = a
  | .nil => rfl
  | .cons v r => by simp only [Carr.append]; rw [Carr.append_nil r]

theorem Carr.snoc_append : ∀ (a : Carr) (v : ConfigObject) (l : Carr),
    Carr.append (a.snoc v) l = Carr.append a (.cons v l)
  | .nil, v, l => rfl
  | .cons w r, v, l => by
    simp only [Carr.snoc, Carr.append]
    rw [← Carr.snoc, Carr.snoc_append r v l]

theorem Cmap.appendM_nil : ∀ m : Cmap, Cmap.appendM m .nil = m
  | .nil => rfl
  | .cons k v r => by simp only [Cmap.appendM]; rw [Cmap.appendM_nil r]

theorem Cmap.appendM_snoc : ∀ (m : Cmap) (k : Key) (v : ConfigObject) (l : Cmap),
    Cmap.appendM (Cmap.appendM m (.cons k v .nil)) l =
      Cmap.appendM m (.cons k v l)
  | .nil, _, _, _ => rfl
  | .cons k2 v2 r, k, v, l => by
    simp only [Cmap.appendM]
    rw [Cmap.appendM_snoc r k v l]


/-! Numeric tokens round-trip. -/

theorem natCharsF_digits : ∀ (f n : Nat), n < f →
    natCharsF f n ≠ [] ∧ ∀ c ∈ natCharsF f n, isdigitB c = true := by
  intro f
  induction f with
  | zero => intro n h; omega
  | succ f ih =>
    intro n h
    by_cases h10 : n < 10
    · simp only [natCharsF, if_pos h10]
      refine ⟨by simp, ?_⟩
      intro c hc
      simp only [List.mem_singleton] at hc
      subst hc
      interval_cases n <;> decide
    · simp only [natCharsF, if_neg h10]
      have hrec := ih (n / 10) (by omega)
      refine ⟨by simp, ?_⟩
      intro c hc
      simp only [List.mem_append, List.mem_singleton] at hc
      rcases hc with hc | hc
      · exact hrec.2 c hc
      · subst hc
        have hm : n % 10 < 10 := Nat.mod_lt _ (by omega)
        generalize n % 10 = r at hm ⊢
        interval_cases r <;> decide

theorem digitsVal_append_one (xs : List Char) (d : Char) :
    digitsVal (xs ++ [d]) = 10 * digitsVal xs + (d.toNat - 48) := by
  simp [digitsVal, List.foldl_append]

theorem digitsVal_natCharsF : ∀ (f n : Nat), n < f →
    digitsVal (natCharsF f n) = n := by
  intro f
  induction f with
  | zero => intro n h; omega
  | succ f ih =>
    intro n h
    by_cases h10 : n < 10
    · simp only [natCharsF, if_pos h10]
      interval_cases n <;> decide
    · simp only [natCharsF, if_neg h10]
      rw [digitsVal_append_one, ih (n / 10) (by omega)]
      have hchar : (Char.ofNat (48 + n % 10)).toNat - 48 = n % 10 := by
        have hm : n % 10 < 10 := Nat.mod_lt _ (by omega)
        generalize n % 10 = r at hm ⊢
        interval_cases r <;> decide
      rw [hchar]
      omega

theorem natChars_digits (n : Nat) :
    natChars n ≠ [] ∧ ∀ c ∈ natChars n, isdigitB c = true :=
  natCharsF_digits (n + 1) n (by omega)

theorem digitsVal_natChars (n : Nat) : digitsVal (natChars n) = n :=
  digitsVal_natCharsF (n + 1) n (by omega)

theorem digit_not_dot {c : Char} (h : isdigitB c = true) : c ≠ '.' := by
  intro heq
  subst heq
  exact absurd h (by decide)

theorem digit_not_sign {c : Char} (h : isdigitB c = true) :
    c ≠ '-' ∧ c ≠ '+' := by
  constructor <;> intro heq <;> subst heq <;> exact absurd h (by decide)

theorem digits_numChar {l : List Char} (h : ∀ c ∈ l, isdigitB c = true) :
    ∀ c ∈ l, numChar c = true := by
  intro c hc
  simp [numChar, h c hc]

theorem signSplit_digit (c : Char) (r : List Char) (hc : isdigitB c = true) :
    signSplit (c :: r) = (1, c :: r) := by
  simp only [signSplit]
  split
  · rename_i heq
    injection heq with h1 h2
    exact absurd h1 (digit_not_sign hc).1
  · rename_i heq
    injection heq with h1 h2
    exact absurd h1 (digit_not_sign hc).2
  · rfl

theorem signChars_digit (c : Char) (r : List Char) (hc : isdigitB c = true) :
    signChars (c :: r) = ([], c :: r) := by
  simp only [signChars]
  split
  · rename_i heq
    injection heq with h1 h2
    exact absurd h1 (digit_not_sign hc).1
  · rename_i heq
    injection heq with h1 h2
    exact absurd h1 (digit_not_sign hc).2
  · rfl

/-- `stoll` on a pure digit string within range. -/
theorem stollM_digits (ds : List Char) (hne : ds ≠ [])
    (hd : ∀ c ∈ ds, isdigitB c = true)
    (hrange : (digitsVal ds : Int) ≤ 2 ^ 63 - 1) :
    stollM ds = some ((digitsVal ds : Int)) := by
  obtain ⟨c, r, rfl⟩ : ∃ c r, ds = c :: r := by
    cases ds with
    | nil => exact absurd rfl hne
    | cons c r => exact ⟨c, r, rfl⟩
  have hc : isdigitB c = true := hd c (by simp)
  simp only [stollM,
    dropWhile_cons_not isspaceB c r (numStart_not_ws c (by simp [hc])),
    signSplit_digit c r hc]
  rw [takeWhile_all isdigitB (c :: r) hd]
  rw [if_neg (by simp)]
  rw [if_neg (by push_neg; exact ⟨by omega, by omega⟩)]
  simp

/-- `stoll` on a minus sign and a pure digit string within range. -/
theorem stollM_neg_digits (ds : List Char) (hne : ds ≠ [])
    (hd : ∀ c ∈ ds, isdigitB c = true)
    (hrange : -(2 ^ 63) ≤ -(digitsVal ds : Int)) :
    stollM ('-' :: ds) = some (-(digitsVal ds : Int)) := by
  simp only [stollM, dropWhile_cons_not isspaceB '-' ds (by decide), signSplit]
  rw [takeWhile_all isdigitB ds hd]
  rw [if_neg hne]
  rw [if_neg (by push_neg; exact ⟨by omega, by omega⟩)]
  simp

theorem takeWhile_dropWhile_digits (rest : List Char)
    (hrest : numSafe rest = true) (ds : List Char)
    (hd : ∀ c ∈ ds, isdigitB c = true) :
    List.takeWhile numChar (ds ++ rest) = ds ∧
    List.dropWhile numChar (ds ++ rest) = rest := by
  constructor
  · rw [takeWhile_append_of_all numChar ds rest (digits_numChar hd),
      takeWhile_numSafe rest hrest, List.append_nil]
  · rw [dropWhile_append_of_all numChar ds rest (digits_numChar hd),
      dropWhile_numSafe rest hrest]

theorem dot_not_mem_digits (ds : List Char)
    (hd : ∀ c ∈ ds, isdigitB c = true) : '.' ∉ ds := by
  intro hmem
  exact digit_not_dot (hd '.' hmem) rfl

/-- The written decimal form of an in-range integer parses back to it
(the numeric branch). -/
theorem parseNumber_intToChars (n : Int) (hlo : -(2 ^ 63) ≤ n)
    (hhi : n ≤ 2 ^ 63 - 1) (rest : List Char) (hrest : numSafe rest = true) :
    parseNumber (intToChars n ++ rest) = .ok (.number n) rest := by
  by_cases hneg : n < 0
  · obtain ⟨h1, h2⟩ := takeWhile_dropWhile_digits rest hrest
      (natChars (-n).toNat) (natChars_digits _).2
    simp only [intToChars, if_pos hneg, List.cons_append, parseNumber,
      signChars, h1, h2]
    rw [if_neg (by
      simp only [List.mem_cons]
      push_neg
      exact ⟨by decide, dot_not_mem_digits _ (natChars_digits _).2⟩)]
    simp only [List.nil_append]
    rw [stollM_neg_digits (natChars (-n).toNat) (natChars_digits _).1
      (natChars_digits _).2
      (by rw [digitsVal_natChars]; omega)]
    rw [digitsVal_natChars]
    have hcast : (((-n).toNat : Int)) = -n := Int.toNat_of_nonneg (by omega)
    rw [hcast, neg_neg]
  · obtain ⟨hne, hd⟩ := natChars_digits n.toNat
    obtain ⟨c, t, hct⟩ : ∃ c t, natChars n.toNat = c :: t := by
      cases hnc : natChars n.toNat with
      | nil => exact absurd hnc hne
      | cons c t => exact ⟨c, t, rfl⟩
    have hc : isdigitB c = true := hd c (by rw [hct]; simp)
    obtain ⟨h1, h2⟩ := takeWhile_dropWhile_digits rest hrest
      (natChars n.toNat) hd
    simp only [intToChars, if_neg hneg]
    rw [hct] at h1 h2 ⊢
    simp only [List.cons_append] at h1 h2 ⊢
    simp only [parseNumber, signChars_digit c (t ++ rest)
      (by exact hc), h1, h2]
    rw [List.nil_append]
    rw [if_neg (by
      refine dot_not_mem_digits (c :: t) ?_
      rw [← hct]
      exact hd)]
    rw [show (c :: t) = natChars n.toNat from hct.symm] at h1 ⊢
    rw [stollM_digits (natChars n.toNat) hne hd
      (by rw [digitsVal_natChars]; omega)]
    rw [digitsVal_natChars]
    have hcast : ((n.toNat : Int)) = n := Int.toNat_of_nonneg (by omega)
    rw [hcast]

/-- The head of a written integer is a digit or a minus sign. -/
theorem intToChars_head (n : Int) :
    ∃ c t, intToChars n = c :: t ∧
      (isdigitB c || c = '-' || c = '+') = true := by
  by_cases hneg : n < 0
  · exact ⟨'-', natChars (-n).toNat, by simp [intToChars, hneg], by decide⟩
  · obtain ⟨hne, hd⟩ := natChars_digits n.toNat
    cases hnc : natChars n.toNat with
    | nil => exact absurd hnc hne
    | cons c t =>
      refine ⟨c, t, by simp [intToChars, hneg, hnc], ?_⟩
      have hc : isdigitB c = true := hd c (by rw [hnc]; simp)
      simp [hc]

/-- The written decimal form of an in-range integer parses back to it
(the full value parser). -/
theorem parse_value_intToChars (n : Int) (hlo : -(2 ^ 63) ≤ n)
    (hhi : n ≤ 2 ^ 63 - 1) (rest : List Char) (hrest : numSafe rest = true)
    (f : Nat) :
    parse_value (f + 1) (intToChars n ++ rest) = .ok (.number n) rest := by
  obtain ⟨c, t, hct, hc⟩ := intToChars_head n
  rw [hct, List.cons_append, parse_value_numeric_start f c (t ++ rest) hc,
    ← List.cons_append, ← hct]
  exact parseNumber_intToChars n hlo hhi rest hrest

/-! Strings and characters round-trip. -/

theorem parse_value_dquote (f : Nat) (x : List Char) :
    parse_value (f + 1) ('"' :: x) =
      .ok (.str (parseStringBody x).1) (parseStringBody x).2 := rfl

theorem parse_value_squote (f : Nat) (x : List Char) :
    parse_value (f + 1) ('\'' :: x) =
      .ok (.character (parseCharBody x).1) (parseCharBody x).2 := rfl

theorem parse_value_lbrack (f : Nat) (x : List Char) :
    parse_value (f + 1) ('[' :: x) =
      (match parseArrayLoop f (skipWs x) .nil with
       | .ok a rest => .ok (.array a) rest
       | .err t => .err t
       | .timeout => .timeout) := rfl

theorem parse_value_lbrace (f : Nat) (x : List Char) :
    parse_value (f + 1) ('\x7b' :: x) =
      (match parseObjectLoop f (skipWs x) .nil with
       | .ok m rest => .ok (.object m) rest
       | .err t => .err t
       | .timeout => .timeout) := rfl

theorem parseStringBody_cons_plain (c : Char) (r : List Char)
    (h1 : c ≠ '"') (h2 : c ≠ '\\') :
    parseStringBody (c :: r) =
      ((c :: (parseStringBody r).1), (parseStringBody r).2) := by
  rw [parseStringBody.eq_def]
  split
  · rename_i heq
    exact absurd heq (by simp)
  · rename_i heq
    injection heq with ha hb
    exact absurd ha h1
  · rename_i c2 r2 heq
    injection heq with ha hb
    exact absurd ha h2
  · rename_i heq h3 h4
    injection h4 with ha hb
    subst ha hb
    rfl

theorem parseStringBody_escString :
    ∀ (s rest : List Char),
      parseStringBody (escString s ++ '"' :: rest) = (s, rest)
  | [], rest => by simp [escString, parseStringBody]
  | c :: cs, rest => by
    have ih := parseStringBody_escString cs rest
    by_cases h1 : c = '\n'
    · subst h1
      simp [escString, parseStringBody, escMapStr, ih]
    · by_cases h2 : c = '\t'
      · subst h2
        simp [escString, h1, parseStringBody, escMapStr, ih]
      · by_cases h3 : c = '\r'
        · subst h3
          simp [escString, h1, h2, parseStringBody, escMapStr, ih]
        · by_cases h4 : c = '\\'
          · subst h4
            simp [escString, h1, h2, h3, parseStringBody, escMapStr, ih]
          · by_cases h5 : c = '"'
            · subst h5
              simp [escString, h1, h2, h3, h4, parseStringBody, escMapStr, ih]
            · simp only [escString, if_neg h1, if_neg h2, if_neg h3,
                if_neg h4, if_neg h5, List.singleton_append, List.cons_append,
                List.nil_append]
              rw [parseStringBody_cons_plain c _ h5 h4, ih]

theorem parseCharBody_plain (c : Char) (rest : List Char) (h : c ≠ '\\') :
    parseCharBody (c :: '\'' :: rest) = (c, rest) := by
  rw [parseCharBody.eq_def]
  split
  · rename_i heq
    exact absurd heq (by simp)
  · rename_i c2 r2 heq
    injection heq with ha hb
    exact absurd ha h
  · rename_i heq h3
    injection h3 with ha hb
    subst ha hb
    rfl

/-- The written single-quoted character token parses back to the same
character. -/
theorem parse_value_escCharTok (c : Char) (rest : List Char) (f : Nat) :
    parse_value (f + 1) (escCharTok c ++ rest) = .ok (.character c) rest := by
  by_cases h1 : c = '\n'
  · subst h1; rfl
  · by_cases h2 : c = '\t'
    · subst h2
      simp only [escCharTok, if_neg h1, if_pos rfl]
      rfl
    · by_cases h3 : c = '\r'
      · subst h3
        simp only [escCharTok, if_neg h1, if_neg h2, if_pos rfl]
        rfl
      · by_cases h4 : c = '\\'
        · subst h4
          simp only [escCharTok, if_neg h1, if_neg h2, if_neg h3, if_pos rfl]
          rfl
        · by_cases h5 : c = '\''
          · subst h5
            simp only [escCharTok, if_neg h1, if_neg h2, if_neg h3,
              if_neg h4, if_pos rfl]
            rfl
          · simp only [escCharTok, if_neg h1, if_neg h2, if_neg h3,
              if_neg h4, if_neg h5, List.cons_append, List.nil_append]
            rw [parse_value_squote, parseCharBody_plain c rest h4]

/-- The written double-quoted string token parses back to the same
string. -/
theorem parse_value_escString (s : List Char) (rest : List Char) (f : Nat) :
    parse_value (f + 1) (('"' :: (escString s ++ ['"'])) ++ rest) =
      .ok (.str s) rest := by
  simp only [List.cons_append, List.append_assoc, List.singleton_append,
    List.nil_append]
  rw [parse_value_dquote, parseStringBody_escString s rest]

/-! One-step equations for the array/object pair loops. -/


theorem beq_false_of_pred (p : Char → Bool) (c χ : Char) (hc : p c = true)
    (hχ : p χ = false) : (c == χ) = false := by
  cases h : c == χ
  · rfl
  · have heq := eq_of_beq h
    subst heq
    rw [hc] at hχ
    exact Bool.noConfusion hχ

theorem indentStr_ws (ind : Nat) : ∀ c ∈ indentStr ind, isspaceB c = true := by
  intro c hc
  simp only [indentStr] at hc
  rw [List.eq_of_mem_replicate hc]
  rfl

/-- One iteration of the array-element loop on a non-terminating head. -/
theorem parseArrayLoop_go (f : Nat) (c : Char) (x : List Char) (acc : Carr)
    (hc : c ≠ ']') :
    parseArrayLoop (f + 1) (c :: x) acc =
      (match parse_value f (c :: x) with
       | .err t => .err t
       | .timeout => .timeout
       | .ok v rest =>
         parseArrayLoop f
           (match skipWs rest with | ',' :: r2 => skipWs r2 | t => t)
           (acc.snoc v)) := by
  simp only [parseArrayLoop]
  split
  · rename_i heq
    exact absurd heq (by simp)
  · rename_i heq
    injection heq with ha hb
    exact absurd ha hc
  · rfl

/-- One iteration of the object-pair loop on a non-terminating head. -/
theorem parseObjectLoop_go (f : Nat) (c : Char) (x : List Char) (acc : Cmap)
    (hc : c ≠ '\x7d') :
    parseObjectLoop (f + 1) (c :: x) acc =
      (let kp := parseKey (c :: x)
       let r2 := skipWs kp.2
       let r3 := match r2 with | ':' :: r => r | t => t
       match parse_value f r3 with
       | .err t => .err t
       | .timeout => .timeout
       | .ok v rest =>
         parseObjectLoop f
           (match skipWs rest with | ',' :: r2 => skipWs r2 | t => t)
           (insertC kp.1 v acc)) := by
  simp only [parseObjectLoop]
  split
  · rename_i heq
    exact absurd heq (by simp)
  · rename_i heq
    injection heq with ha hb
    exact absurd ha hc
  · rfl

/-- A quoted key (with no embedded quote) parses back exactly. -/
theorem parseKey_quoted (k : Key) (hq : '"' ∉ k) (x : List Char) :
    parseKey ('"' :: (k ++ '"' :: x)) = (k, x) := by
  simp only [parseKey, skipWs_cons_not '"' _ (by decide)]
  have hall : ∀ c ∈ k, (fun c => c ≠ '"' : Char → Bool) c = true := by
    intro c hc
    simp only [ne_eq, decide_eq_true_eq]
    exact fun heq => hq (heq ▸ hc)
  rw [takeWhile_append_of_all _ k _ hall, dropWhile_append_of_all _ k _ hall]
  simp [List.takeWhile, List.dropWhile]





/-- Every character of a line break plus closing-bracket indentation is
whitespace. -/
theorem ws_all_nl_indent (ind : Nat) :
    ∀ c ∈ '\n' :: indentStr ind, isspaceB c = true := by
  intro c hc
  rcases List.mem_cons.mp hc with rfl | hc2
  · rfl
  · exact indentStr_ws ind c hc2

/-- Every character of a line break plus entry indentation is
whitespace. -/
theorem ws_all_nl_indent_sp (ind : Nat) :
    ∀ c ∈ '\n' :: (indentStr ind ++ [' ', ' ', ' ', ' ']), isspaceB c = true := by
  intro c hc
  rcases List.mem_cons.mp hc with rfl | hc2
  · rfl
  · rcases List.mem_append.mp hc2 with hc3 | hc4
    · exact indentStr_ws ind c hc3
    · fin_cases hc4 <;> rfl

/-- A single blank is whitespace. -/
theorem ws_all_sp : ∀ c ∈ [' '], isspaceB c = true := by
  intro c hc
  fin_cases hc
  rfl

/-- A single leading blank is skipped by `parse_value`. -/
theorem parse_value_sp (f : Nat) (s : List Char) :
    parse_value f (' ' :: s) = parse_value f s :=
  parse_value_ws f [' '] s ws_all_sp

/-- One iteration of the object-pair loop on a written `"key": value`
entry. -/
theorem parseObjectLoop_entry (f : Nat) (k : Key) (hqk : '"' ∉ k)
    (x : List Char) (acc : Cmap) :
    parseObjectLoop (f + 1) ('"' :: (k ++ '"' :: ':' :: ' ' :: x)) acc =
      (match parse_value f (' ' :: x) with
       | .err t => .err t
       | .timeout => .timeout
       | .ok v rest =>
         parseObjectLoop f
           (match skipWs rest with | ',' :: r2 => skipWs r2 | t => t)
           (insertC k v acc)) := by
  rw [parseObjectLoop_go f '"' (k ++ '"' :: ':' :: ' ' :: x) acc (by decide)]
  rw [show parseKey ('"' :: (k ++ '"' :: ':' :: ' ' :: x)) = (k, ':' :: ' ' :: x)
    from parseKey_quoted k hqk (':' :: ' ' :: x)]
  show (match parse_value f
      (match skipWs (':' :: ' ' :: x) with | ':' :: r => r | t => t) with
    | PRes.err t => PRes.err t
    | PRes.timeout => PRes.timeout
    | PRes.ok v rest =>
      parseObjectLoop f
        (match skipWs rest with | ',' :: r2 => skipWs r2 | t => t)
        (insertC k v acc)) = _
  rw [skipWs_cons_not ':' (' ' :: x) (by decide)]
  rfl

/-! ## Claim C1 -/

/-- C1: the code violates the claim.  `write_value` emits nothing at all
for any Object- or Array-tagged node: the source's OBJECT and ARRAY cases
first call `get_as<std::shared_ptr<std::map<...>>>()` (resp.
`std::vector`), which matches no `if constexpr` branch of `get_as` and
always returns `nullopt`, so the guard `if (!obj_ptr) break;` (resp.
`arr_ptr`) is always taken before anything is printed.  Re-parsing the
written form of any such tree therefore yields `None`, not a tree
structurally equal to the original.  Scalar values, by contrast, do
round-trip: `None`, in-range Integers, Booleans, Strings and Characters
all re-parse to themselves with nothing left over (Floats are excluded by
the claim itself). -/
theorem claim1_roundtrip_fails_for_compounds :
    (∀ (m : Cmap) (ind : Nat) (inl : Bool),
      write_value (.object m) ind inl = []) ∧
    (∀ (a : Carr) (ind : Nat) (inl : Bool),
      write_value (.array a) ind inl = []) ∧
    (∀ (f : Nat) (m : Cmap) (ind : Nat) (inl : Bool),
      parse_value (f + 1) (write_value (.object m) ind inl) =
        PRes.ok .cnone []) ∧
    (∀ (f : Nat) (a : Carr) (ind : Nat) (inl : Bool),
      parse_value (f + 1) (write_value (.array a) ind inl) =
        PRes.ok .cnone []) ∧
    (∀ (f ind : Nat) (inl : Bool),
      parse_value (f + 1) (write_value .cnone ind inl) = PRes.ok .cnone []) ∧
    (∀ (b : Bool) (f ind : Nat) (inl : Bool),
      parse_value (f + 1) (write_value (.boolean b) ind inl) =
        PRes.ok (.boolean b) []) ∧
    (∀ (n : Int), -(2 ^ 63) ≤ n → n ≤ 2 ^ 63 - 1 →
      ∀ (f ind : Nat) (inl : Bool),
      parse_value (f + 1) (write_value (.number n) ind inl) =
        PRes.ok (.number n) []) ∧
    (∀ (s : List Char) (f ind : Nat) (inl : Bool),
      parse_value (f + 1) (write_value (.str s) ind inl) =
        PRes.ok (.str s) []) ∧
    (∀ (c : Char) (f ind : Nat) (inl : Bool),
      parse_value (f + 1) (write_value (.character c) ind inl) =
        PRes.ok (.character c) []) := by
  refine ⟨?_, ?_, ?_, ?_, ?_, ?_, ?_, ?_, ?_⟩
  · intro m ind inl
    rfl
  · intro a ind inl
    rfl
  · intro f m ind inl
    rfl
  · intro f a ind inl
    rfl
  · intro f ind inl
    rfl
  · intro b f ind inl
    cases b <;> rfl
  · intro n h1 h2 f ind inl
    have h := parse_value_intToChars n h1 h2 [] rfl f
    rwa [List.append_nil] at h
  · intro s f ind inl
    have h := parse_value_escString s [] f
    rwa [List.append_nil] at h
  · intro c f ind inl
    have h := parse_value_escCharTok c [] f
    rwa [List.append_nil] at h

/-- C1 witness: the compound-loss and scalar round-trip facts at concrete
inputs — the one-entry object `x: None` writes as nothing and re-parses
as `None`, while the integer 42 and the string `"hi"` round-trip. -/
theorem claim1_witness :
    write_value (.object (Cmap.ofList [(['x'], .cnone)])) 0 false = [] ∧
    parse_value (4 + 1)
        (write_value (.object (Cmap.ofList [(['x'], .cnone)])) 0 false) =
      PRes.ok .cnone [] ∧
    (-(2 ^ 63) ≤ (42 : Int) ∧ (42 : Int) ≤ 2 ^ 63 - 1) ∧
    parse_value (4 + 1) (write_value (.number 42) 0 false) =
      PRes.ok (.number 42) [] ∧
    parse_value (4 + 1) (write_value (.str ['h', 'i']) 0 false) =
      PRes.ok (.str ['h', 'i']) [] :=
  ⟨claim1_roundtrip_fails_for_compounds.1 (Cmap.ofList [(['x'], .cnone)]) 0 false,
   claim1_roundtrip_fails_for_compounds.2.2.1 4 (Cmap.ofList [(['x'], .cnone)])
     0 false,
   ⟨by decide, by decide⟩,
   claim1_roundtrip_fails_for_compounds.2.2.2.2.2.2.1 42 (by decide) (by decide)
     4 0 false,
   claim1_roundtrip_fails_for_compounds.2.2.2.2.2.2.2.1 ['h', 'i'] 4 0 false⟩

end CntConfig
